import Mathlib

/-! Two-tier allocator of `src/allocations.c`.

A shallow embedding of the slab pool (`struct Pool64`, `getPool64`,
`allocInPool64`, `allocInPool`, `freeFromPool64`, `freeFromPool`) and of the
four entry points (`malloc`, `calloc`, `realloc`, `free`).

Conventions of the embedding.

* A pointer is its address, a natural number; `NULL` is address `0`.
* The static object `memory` of `getPool64` lives at address `Env.memory`.
  `memory.chunks[i]` is at `memory + 16 * i` (each union member is 16 bytes),
  and `memory.head` follows the array, at `memory + 16 * CHUNKS`, which is also
  the value `poolEnd` computed by `freeFromPool64`.
* `World.mem a` is the pointer-sized word stored at address `a`.  The code only
  ever loads and stores `struct Node *` values, at the address of a chunk or of
  `head`.  Stores through a pointer lying strictly inside a chunk would overlap
  neighbouring words; such pointers are outside what this word-granular memory
  describes faithfully.
* jemalloc is not part of the repository: its four functions are parameters
  (`Env.je_malloc` ...) acting on an abstract allocator state, and every call
  made to them is recorded in `World.calls`.
* `assert` aborts the process when it fails unless the translation unit is
  compiled with `NDEBUG`; `Env.ndebug` says which.  An aborted call has no
  result (`none`).
* Between two calls the application may write into memory; such a write of a
  pointer-sized word is an `Act.store`.
-/

namespace Allocations

/-- `#define CHUNKS 1024 * 512`; every use in the source is in a position where
the missing parentheses do not change the value. -/
def CHUNKS : Nat := 1024 * 512

/-- `#define CHUNKSIZE 16`, also `sizeof(struct Chunk64)` and the size of one
element of `chunks`. -/
def CHUNKSIZE : Nat := 16

/-- A call made to the backing allocator. -/
inductive JeCall where
  | malloc (size : Nat)
  | calloc (count size : Nat)
  | realloc (ptr size : Nat)
  | free (ptr : Nat)
  deriving DecidableEq, Repr

/-- What surrounds the translation unit: where the linker put `memory`, whether
`NDEBUG` is defined, and the backing allocator over its own state `β`. -/
structure Env (β : Type) where
  memory : Nat
  ndebug : Bool
  je_malloc : β → Nat → Nat × β
  je_calloc : β → Nat → Nat → Nat × β
  je_realloc : β → Nat → Nat → Nat × β
  je_free : β → Nat → β

/-- The mutable state: the static `pool` of `getPool64`, the words of memory,
the backing allocator's state, and the record of calls made to it. -/
structure World (β : Type) where
  pool : Nat
  mem : Nat → Nat
  je : β
  calls : List JeCall

variable {β : Type}

/-- Address of `p->chunks[i]` for a `struct Pool64 *p`. -/
def chunkAddr (p i : Nat) : Nat := p + CHUNKSIZE * i

/-- Address of `p->head` for a `struct Pool64 *p`: the member after
`chunks[CHUNKS]`. -/
def headAddr (p : Nat) : Nat := p + CHUNKSIZE * CHUNKS

/-- The value `&pool->chunks` that `freeFromPool64` calls `poolBegin`. -/
def poolBegin (p : Nat) : Nat := p

/-- The value `((void *)&pool->chunks) + sizeof(struct Chunk64[CHUNKS])` that
`freeFromPool64` calls `poolEnd`. -/
def poolEnd (p : Nat) : Nat := poolBegin p + CHUNKSIZE * CHUNKS

/-- One iteration of the loop of `getPool64`:
`memory.chunks[i].node.next = &memory.chunks[i + 1].node`. -/
def threadStep (memory : Nat) (m : Nat → Nat) (i : Nat) : Nat → Nat :=
  Function.update m (chunkAddr memory i) (chunkAddr memory (i + 1))

/-- The loop `for (int i = 0; i < n; ++i)` of `getPool64` (there `n` is
`CHUNKS - 1`). -/
def threadLoop (memory n : Nat) (m : Nat → Nat) : Nat → Nat :=
  (List.range n).foldl (threadStep memory) m

/-- The function `getPool64`: on the first call thread the free list and set
`pool`; return `pool`. -/
def getPool64 (env : Env β) (s : World β) : Nat × World β :=
  if s.pool = 0 then
    let m1 := threadLoop env.memory (CHUNKS - 1) s.mem
    let m2 := Function.update m1 (chunkAddr env.memory (CHUNKS - 1)) 0
    let m3 := Function.update m2 (headAddr env.memory) (chunkAddr env.memory 0)
    (env.memory, { s with pool := env.memory, mem := m3 })
  else
    (s.pool, s)

/-- The function `allocInPool64`: pop the head of the free list, or return
`NULL` when it is empty. -/
def allocInPool64 (pool : Nat) (s : World β) : Nat × World β :=
  let node := s.mem (headAddr pool)
  if node = 0 then
    (0, s)
  else
    (node, { s with mem := Function.update s.mem (headAddr pool) (s.mem node) })

/-- The function `allocInPool`. -/
def allocInPool (env : Env β) (s : World β) (size : Nat) : Nat × World β :=
  if size ≤ CHUNKSIZE then
    let r := getPool64 env s
    allocInPool64 r.1 r.2
  else
    (0, s)

/-- The function `freeFromPool64`.  The index is at most `CHUNKS` when the range
check lets the pointer through, so the conversion to `int` loses nothing. -/
def freeFromPool64 (env : Env β) (s : World β) (ptr : Nat) : Option (Bool × World β) :=
  let r := getPool64 env s
  let pool := r.1
  let s1 := r.2
  if ptr < poolBegin pool ∨ poolEnd pool < ptr then
    some (false, s1)
  else
    let index := (ptr - poolBegin pool) / CHUNKSIZE
    if env.ndebug = false ∧ ¬ index < CHUNKS then
      none
    else
      let m1 := Function.update s1.mem ptr (s1.mem (headAddr pool))
      let m2 := Function.update m1 (headAddr pool) ptr
      some (true, { s1 with mem := m2 })

/-- The function `freeFromPool`. -/
def freeFromPool (env : Env β) (s : World β) (ptr : Nat) : Option (Bool × World β) :=
  match freeFromPool64 env s ptr with
  | none => none
  | some (true, s1) => some (true, s1)
  | some (false, s1) => some (false, s1)

/-- The entry point `malloc`. -/
def malloc (env : Env β) (s : World β) (size : Nat) : Nat × World β :=
  let r := allocInPool env s size
  if r.1 ≠ 0 then
    r
  else
    let b := env.je_malloc r.2.je size
    (b.1, { r.2 with je := b.2, calls := r.2.calls ++ [JeCall.malloc size] })

/-- The entry point `calloc`. -/
def calloc (env : Env β) (s : World β) (count size : Nat) : Nat × World β :=
  let b := env.je_calloc s.je count size
  (b.1, { s with je := b.2, calls := s.calls ++ [JeCall.calloc count size] })

/-- The entry point `realloc`. -/
def realloc (env : Env β) (s : World β) (ptr size : Nat) : Nat × World β :=
  let b := env.je_realloc s.je ptr size
  (b.1, { s with je := b.2, calls := s.calls ++ [JeCall.realloc ptr size] })

/-- The entry point `free`; `none` when the assertion of `freeFromPool64`
aborted the process. -/
def free (env : Env β) (s : World β) (ptr : Nat) : Option (World β) :=
  match freeFromPool env s ptr with
  | none => none
  | some (true, s1) => some s1
  | some (false, s1) =>
    some { s1 with je := env.je_free s1.je ptr, calls := s1.calls ++ [JeCall.free ptr] }

/-! ## Observations on a state -/

/-- The free-list head `pool->head` of the pool at `memory`. -/
def poolHead (env : Env β) (s : World β) : Nat := s.mem (headAddr env.memory)

/-- The link `memory.chunks[i].node.next`. -/
def chunkNext (env : Env β) (s : World β) (i : Nat) : Nat := s.mem (chunkAddr env.memory i)

/-- The address `a` is the start of one of the `CHUNKS` chunks of the pool at
`p`: inside `[poolBegin, poolEnd)` and on a chunk boundary. -/
def IsChunk (p a : Nat) : Prop :=
  poolBegin p ≤ a ∧ a < poolEnd p ∧ (a - poolBegin p) % CHUNKSIZE = 0

instance (p a : Nat) : Decidable (IsChunk p a) := by
  unfold IsChunk; infer_instance

/-- A link value is `NULL` or the address of a chunk of the region. -/
def IsLink (p a : Nat) : Prop := a = 0 ∨ IsChunk p a

instance (p a : Nat) : Decidable (IsLink p a) := by
  unfold IsLink; infer_instance

/-- The pool is constructed, and the head and the link of every chunk are
`NULL` or point at a chunk of the region. -/
def PoolInv (env : Env β) (s : World β) : Prop :=
  s.pool = env.memory ∧ IsLink env.memory (poolHead env s) ∧
    ∀ i, i < CHUNKS → IsLink env.memory (chunkNext env s i)

/-- Follow `next` links from `p` for at most `fuel` nodes: the nodes visited
when `NULL` is reached within the bound, `none` otherwise. -/
def walk (mem : Nat → Nat) : Nat → Nat → Option (List Nat)
  | 0, p => if p = 0 then some [] else none
  | fuel + 1, p => if p = 0 then some [] else (walk mem fuel (mem p)).map (fun l => p :: l)

/-- The free list of the pool: the chunks met from `head` up to `NULL`, when
there are at most `CHUNKS` of them. -/
def freeList (env : Env β) (s : World β) : Option (List Nat) :=
  walk s.mem CHUNKS (poolHead env s)

/-! ## Sequences of calls -/

/-- A call of one of the four entry points. -/
inductive Op where
  | malloc (size : Nat)
  | calloc (count size : Nat)
  | realloc (ptr size : Nat)
  | free (ptr : Nat)
  deriving DecidableEq, Repr

/-- The state after one call; `none` when the call aborted. -/
def step (env : Env β) (s : World β) : Op → Option (World β)
  | Op.malloc n => some (malloc env s n).2
  | Op.calloc c n => some (calloc env s c n).2
  | Op.realloc p n => some (realloc env s p n).2
  | Op.free p => free env s p

/-- The state after a sequence of calls made one after the other. -/
def run (env : Env β) : World β → List Op → Option (World β)
  | s, [] => some s
  | s, op :: ops =>
    match step env s op with
    | none => none
    | some s1 => run env s1 ops

/-- Consecutive `malloc` calls, one per requested size: the pointers returned,
in order, and the final state. -/
def mallocs (env : Env β) : World β → List Nat → List Nat × World β
  | s, [] => ([], s)
  | s, n :: ns => ((malloc env s n).1 :: (mallocs env (malloc env s n).2 ns).1,
      (mallocs env (malloc env s n).2 ns).2)

/-- The pointer value `&memory.chunks[i]` for `i < CHUNKS`, and `NULL` from
`CHUNKS` on: what the bootstrap stores as the link of chunk `i - 1`. -/
def linkTo (memory i : Nat) : Nat := if i < CHUNKS then chunkAddr memory i else 0

/-- The pool is constructed, chunks `i`, `i + 1`, ... are still on the free
list in array order, and every link is as the bootstrap left it. -/
def Threaded (env : Env β) (s : World β) (i : Nat) : Prop :=
  s.pool = env.memory ∧ poolHead env s = linkTo env.memory i ∧
    ∀ j, j < CHUNKS → chunkNext env s j = linkTo env.memory (j + 1)

/-- The nodes of a `NULL`-terminated list of links starting at `p` are exactly
`l`, in order. -/
def Chain (mem : Nat → Nat) : Nat → List Nat → Prop
  | p, [] => p = 0
  | p, a :: l => p = a ∧ a ≠ 0 ∧ Chain mem (mem a) l

/-- The address lies in `[poolBegin, poolEnd)`. -/
def inRegion (memory p : Nat) : Bool := decide (poolBegin memory ≤ p ∧ p < poolEnd memory)

/-- The pool chunks in use: the outstanding pointers that lie in the region. -/
def inUse (memory : Nat) (live : List Nat) : List Nat := live.filter (inRegion memory)

/-- Run a sequence of calls while keeping the list `live` of the pointers that
`malloc` returned and that were not passed to `free` since. -/
def runLive (env : Env β) : World β → List Nat → List Op → Option (World β × List Nat)
  | s, live, [] => some (s, live)
  | s, live, Op.malloc n :: ops =>
    runLive env (malloc env s n).2 ((malloc env s n).1 :: live) ops
  | s, live, Op.free p :: ops =>
    match free env s p with
    | none => none
    | some s1 => runLive env s1 (live.erase p) ops
  | s, live, Op.calloc c n :: ops =>
    runLive env (calloc env s c n).2 ((calloc env s c n).1 :: live) ops
  | s, live, Op.realloc p n :: ops =>
    runLive env (realloc env s p n).2 ((realloc env s p n).1 :: live.erase p) ops

/-- The sequence consists of `malloc` calls of sizes up to `CHUNKSIZE` and of
`free` calls, each on a pointer that an earlier `malloc` returned and that has
not been freed since. -/
def Disciplined (env : Env β) : World β → List Nat → List Op → Prop
  | _, _, [] => True
  | s, live, Op.malloc n :: ops =>
    n ≤ CHUNKSIZE ∧ Disciplined env (malloc env s n).2 ((malloc env s n).1 :: live) ops
  | s, live, Op.free p :: ops =>
    p ∈ live ∧ ∀ s1, free env s p = some s1 → Disciplined env s1 (live.erase p) ops
  | _, _, Op.calloc _ _ :: _ => False
  | _, _, Op.realloc _ _ :: _ => False

/-- The backing allocator never returns an address inside the storage of the
pool, `[poolBegin, poolEnd]` (it returns `NULL` or memory of its own). -/
def BackingOutside (env : Env β) : Prop :=
  ∀ b n, (env.je_malloc b n).1 < poolBegin env.memory ∨
    poolEnd env.memory < (env.je_malloc b n).1

/-- The free list is a `NULL`-terminated list of distinct chunks of the array,
none of them outstanding; no pool chunk is outstanding twice; and the length of
the free list plus the number of pool chunks in use is `CHUNKS`. -/
def NoDoubleIssue (env : Env β) (s : World β) (live : List Nat) : Prop :=
  ∃ l, freeList env s = some l ∧ l.Nodup ∧ (∀ a, a ∈ l → IsChunk env.memory a) ∧
    (∀ a, a ∈ l → a ∉ live) ∧ (inUse env.memory live).Nodup ∧
    l.length + (inUse env.memory live).length = CHUNKS

/-- The invariant carried along a disciplined sequence of calls. -/
def LiveInv (env : Env β) (s : World β) (live : List Nat) : Prop :=
  s.pool = env.memory ∧
  (∀ a, a ∈ live → IsChunk env.memory a ∨
    (a < poolBegin env.memory ∨ poolEnd env.memory < a)) ∧
  ∃ l, Chain s.mem (poolHead env s) l ∧ l.Nodup ∧ (∀ a, a ∈ l → IsChunk env.memory a) ∧
    (∀ a, a ∈ l → a ∉ live) ∧ (inUse env.memory live).Nodup ∧
    l.length + (inUse env.memory live).length = CHUNKS

/-- The pointer is `NULL` or `pool_begin + k * CHUNKSIZE` for an integer `k`
(inside or outside the region). -/
def ChunkAligned (memory p : Nat) : Prop := p = 0 ∨ p % CHUNKSIZE = memory % CHUNKSIZE

/-- Every pointer passed to `free` is `NULL` or on a chunk boundary. -/
def AlignedOp (memory : Nat) : Op → Prop
  | Op.free p => ChunkAligned memory p
  | _ => True

/-! ## The program between calls -/

/-- The `k`-th node met when following the links from `p`: `p` itself, then the
link stored in the previous node; `NULL` from the end of the list on. -/
def nthNode (mem : Nat → Nat) (p : Nat) : Nat → Nat
  | 0 => p
  | k + 1 => if nthNode mem p k = 0 then 0 else mem (nthNode mem p k)

/-- The head, and the link of every chunk met on the free list, is `NULL` or
the address of a chunk of the region. -/
def LinksInRegion (env : Env β) (s : World β) : Prop :=
  ∀ k, IsLink env.memory (nthNode s.mem (poolHead env s) k)

/-- What the program does to the allocator and to memory: a call of `malloc`, a
call of `free`, or a store of a pointer-sized word by the application. -/
inductive Act where
  | malloc (size : Nat)
  | free (ptr : Nat)
  | store (addr value : Nat)
  deriving DecidableEq, Repr

/-- The state after one action; `none` when a call aborted. -/
def stepAct (env : Env β) (s : World β) : Act → Option (World β)
  | Act.malloc n => some (malloc env s n).2
  | Act.free p => free env s p
  | Act.store a v => some { s with mem := Function.update s.mem a v }

/-- The state after a sequence of actions. -/
def runActs (env : Env β) : World β → List Act → Option (World β)
  | s, [] => some s
  | s, a :: acts =>
    match stepAct env s a with
    | none => none
    | some s1 => runActs env s1 acts

/-- The action is a `malloc`, a `free` of `NULL` or of a chunk-boundary pointer
other than `poolEnd`, or a store that touches neither `head` nor a chunk that
is on the free list at that moment. -/
def Allowed (env : Env β) (s : World β) : Act → Prop
  | Act.malloc _ => True
  | Act.free p => ChunkAligned env.memory p ∧ p ≠ poolEnd env.memory
  | Act.store a _ =>
    a ≠ headAddr env.memory ∧ ∀ k, nthNode s.mem (poolHead env s) k ≠ a

/-- Every action of the sequence is allowed in the state in which it is made. -/
def Permitted (env : Env β) : World β → List Act → Prop
  | _, [] => True
  | s, a :: acts => Allowed env s a ∧ ∀ s1, stepAct env s a = some s1 → Permitted env s1 acts

/-! ## A concrete environment

`memory` at address 4096, assertions enabled, and a backing allocator that
hands out addresses from `2 ^ 24` upwards, above the pool's storage. -/

/-- A bump allocator over a counter, used as a concrete backing allocator. -/
def sampleEnv : Env Nat where
  memory := 4096
  ndebug := false
  je_malloc := fun b n => (16777216 + b, b + n + 1)
  je_calloc := fun b c n => (16777216 + b, b + c * n + 1)
  je_realloc := fun b _ n => (16777216 + b, b + n + 1)
  je_free := fun b _ => b

/-- The same environment compiled with `NDEBUG`. -/
def sampleEnvNdebug : Env Nat := { sampleEnv with ndebug := true }

/-- Process start: static storage is zero, so `pool` is `NULL`. -/
def boot : World Nat where
  pool := 0
  mem := fun _ => 0
  je := 0
  calls := []

/-- The fresh pool after `p = malloc(8)` and a store of application data through
`p` (chunk 0, at address 4096). -/
def heldStore : World Nat :=
  { (malloc sampleEnv (getPool64 sampleEnv boot).2 8).2 with
    mem := Function.update (malloc sampleEnv (getPool64 sampleEnv boot).2 8).2.mem 4096 12345 }

/-! ## Arithmetic of the layout -/

theorem CHUNKS_pos : 0 < CHUNKS := by decide

theorem chunkAddr_lt_headAddr (p i : Nat) (h : i < CHUNKS) : chunkAddr p i < headAddr p := by
  unfold chunkAddr headAddr CHUNKSIZE; omega

theorem chunkAddr_inj (p i j : Nat) (h : chunkAddr p i = chunkAddr p j) : i = j := by
  unfold chunkAddr CHUNKSIZE at h; omega

theorem isChunk_chunkAddr (p i : Nat) (h : i < CHUNKS) : IsChunk p (chunkAddr p i) := by
  unfold IsChunk poolBegin poolEnd chunkAddr CHUNKSIZE poolBegin
  refine ⟨by omega, by omega, ?_⟩
  simp

theorem isChunk_iff (p a : Nat) : IsChunk p a ↔ ∃ i, i < CHUNKS ∧ a = chunkAddr p i := by
  constructor
  · rintro ⟨h1, h2, h3⟩
    unfold poolBegin at h1 h3
    unfold poolEnd poolBegin CHUNKSIZE at h2
    unfold CHUNKSIZE at h3
    refine ⟨(a - p) / 16, ?_, ?_⟩
    · omega
    · unfold chunkAddr CHUNKSIZE; omega
  · rintro ⟨i, hi, rfl⟩
    exact isChunk_chunkAddr p i hi

/-! ## The bootstrap loop -/

theorem threadLoop_succ (memory n : Nat) (m : Nat → Nat) :
    threadLoop memory (n + 1) m = threadStep memory (threadLoop memory n m) n := by
  unfold threadLoop
  rw [List.range_succ, List.foldl_append]
  rfl

theorem threadLoop_chunk (memory n : Nat) (m : Nat → Nat) (i : Nat) (h : i < n) :
    threadLoop memory n m (chunkAddr memory i) = chunkAddr memory (i + 1) := by
  induction n with
  | zero => omega
  | succ k ih =>
    rw [threadLoop_succ]
    unfold threadStep
    rw [Function.update_apply]
    split_ifs with e
    · rw [chunkAddr_inj memory i k e]
    · have hne : i ≠ k := fun c => e (by rw [c])
      exact ih (by omega)

theorem threadLoop_other (memory n : Nat) (m : Nat → Nat) (a : Nat)
    (h : ∀ i, i < n → a ≠ chunkAddr memory i) : threadLoop memory n m a = m a := by
  induction n with
  | zero => rfl
  | succ k ih =>
    rw [threadLoop_succ]
    unfold threadStep
    rw [Function.update_apply, if_neg (h k (by omega))]
    exact ih (fun i hi => h i (by omega))

/-! ## `getPool64` -/

theorem getPool64_constructed (env : Env β) (s : World β) (h : s.pool = env.memory)
    (h0 : env.memory ≠ 0) : getPool64 env s = (env.memory, s) := by
  unfold getPool64
  rw [if_neg (by rw [h]; exact h0), h]

theorem getPool64_first_pool (env : Env β) (s : World β) (h : s.pool = 0) :
    (getPool64 env s).1 = env.memory ∧ (getPool64 env s).2.pool = env.memory ∧
      (getPool64 env s).2.je = s.je ∧ (getPool64 env s).2.calls = s.calls := by
  unfold getPool64
  rw [if_pos h]
  exact ⟨rfl, rfl, rfl, rfl⟩

theorem getPool64_first_head (env : Env β) (s : World β) (h : s.pool = 0) :
    poolHead env (getPool64 env s).2 = chunkAddr env.memory 0 := by
  unfold getPool64 poolHead
  rw [if_pos h]
  simp

theorem getPool64_first_next (env : Env β) (s : World β) (h : s.pool = 0) (i : Nat)
    (hi : i + 1 < CHUNKS) :
    chunkNext env (getPool64 env s).2 i = chunkAddr env.memory (i + 1) := by
  unfold getPool64 chunkNext
  rw [if_pos h]
  have h1 : chunkAddr env.memory i ≠ headAddr env.memory :=
    Nat.ne_of_lt (chunkAddr_lt_headAddr _ _ (by omega))
  have h2 : chunkAddr env.memory i ≠ chunkAddr env.memory (CHUNKS - 1) := fun c => by
    have := chunkAddr_inj _ _ _ c
    omega
  simp only [Function.update_apply, if_neg h1, if_neg h2]
  exact threadLoop_chunk _ _ _ _ (by omega)

theorem getPool64_first_last (env : Env β) (s : World β) (h : s.pool = 0) :
    chunkNext env (getPool64 env s).2 (CHUNKS - 1) = 0 := by
  unfold getPool64 chunkNext
  rw [if_pos h]
  have h1 : chunkAddr env.memory (CHUNKS - 1) ≠ headAddr env.memory :=
    Nat.ne_of_lt (chunkAddr_lt_headAddr _ _ (Nat.sub_lt CHUNKS_pos Nat.one_pos))
  simp only [Function.update_apply, if_neg h1, if_true]

theorem getPool64_first_other (env : Env β) (s : World β) (h : s.pool = 0) (a : Nat)
    (ha : a < poolBegin env.memory ∨ headAddr env.memory < a) :
    (getPool64 env s).2.mem a = s.mem a := by
  unfold getPool64
  rw [if_pos h]
  unfold poolBegin at ha
  have hm : env.memory ≤ headAddr env.memory := by unfold headAddr; omega
  have h1 : a ≠ headAddr env.memory := by omega
  have h2 : ∀ i, i < CHUNKS → a ≠ chunkAddr env.memory i := fun i hi => by
    have := chunkAddr_lt_headAddr env.memory i hi
    have : env.memory ≤ chunkAddr env.memory i := by unfold chunkAddr; omega
    omega
  simp only [Function.update_apply, if_neg h1, if_neg (h2 _ (Nat.sub_lt CHUNKS_pos Nat.one_pos))]
  exact threadLoop_other _ _ _ _ (fun i hi => h2 i (by omega))

theorem getPool64_poolInv (env : Env β) (s : World β) (h : s.pool = 0) :
    PoolInv env (getPool64 env s).2 := by
  refine ⟨(getPool64_first_pool env s h).2.1, ?_, ?_⟩
  · rw [getPool64_first_head env s h]
    exact Or.inr (isChunk_chunkAddr _ _ CHUNKS_pos)
  · intro i hi
    by_cases hl : i + 1 < CHUNKS
    · rw [getPool64_first_next env s h i hl]
      exact Or.inr (isChunk_chunkAddr _ _ hl)
    · have : i = CHUNKS - 1 := by omega
      rw [this, getPool64_first_last env s h]
      exact Or.inl rfl

/-! ## Walking the free list -/

theorem linkTo_lt (memory i : Nat) (h : i < CHUNKS) : linkTo memory i = chunkAddr memory i := by
  unfold linkTo; rw [if_pos h]

theorem linkTo_ge (memory i : Nat) (h : CHUNKS ≤ i) : linkTo memory i = 0 := by
  unfold linkTo; rw [if_neg (by omega)]

theorem chunkAddr_ne_zero (memory i : Nat) (h0 : memory ≠ 0) : chunkAddr memory i ≠ 0 := by
  unfold chunkAddr; omega

theorem walk_threaded (memory : Nat) (h0 : memory ≠ 0) (mem : Nat → Nat)
    (hm : ∀ j, j < CHUNKS → mem (chunkAddr memory j) = linkTo memory (j + 1)) :
    ∀ k i, i + k = CHUNKS →
      walk mem k (linkTo memory i) = some ((List.range' i k).map (chunkAddr memory)) := by
  intro k
  induction k with
  | zero =>
    intro i hi
    rw [linkTo_ge memory i (by omega)]
    rfl
  | succ k ih =>
    intro i hi
    have hlt : i < CHUNKS := by omega
    rw [linkTo_lt memory i hlt]
    unfold walk
    rw [if_neg (chunkAddr_ne_zero memory i h0), hm i hlt, ih (i + 1) (by omega)]
    rfl

theorem getPool64_first_links (env : Env β) (s : World β) (h : s.pool = 0) (j : Nat)
    (hj : j < CHUNKS) :
    (getPool64 env s).2.mem (chunkAddr env.memory j) = linkTo env.memory (j + 1) := by
  by_cases hl : j + 1 < CHUNKS
  · rw [linkTo_lt _ _ hl]
    exact getPool64_first_next env s h j hl
  · rw [linkTo_ge _ _ (by omega)]
    have : j = CHUNKS - 1 := by omega
    rw [this]
    exact getPool64_first_last env s h

theorem chunkAddr_injective (memory : Nat) : Function.Injective (chunkAddr memory) :=
  fun i j h => chunkAddr_inj memory i j h

/-! ## The entry points on a constructed pool -/

theorem malloc_small_constructed (env : Env β) (s : World β) (n : Nat)
    (h : s.pool = env.memory) (h0 : env.memory ≠ 0) (hn : n ≤ CHUNKSIZE) :
    malloc env s n =
      if poolHead env s = 0 then
        ((env.je_malloc s.je n).1,
          { s with je := (env.je_malloc s.je n).2, calls := s.calls ++ [JeCall.malloc n] })
      else
        (poolHead env s,
          { s with mem := Function.update s.mem (headAddr env.memory) (s.mem (poolHead env s)) }) := by
  unfold malloc allocInPool
  rw [if_pos hn, getPool64_constructed env s h h0]
  unfold allocInPool64 poolHead
  by_cases hz : s.mem (headAddr env.memory) = 0
  · simp [hz]
  · simp [hz]

theorem malloc_large (env : Env β) (s : World β) (n : Nat) (hn : CHUNKSIZE < n) :
    malloc env s n =
      ((env.je_malloc s.je n).1,
        { s with je := (env.je_malloc s.je n).2, calls := s.calls ++ [JeCall.malloc n] }) := by
  unfold malloc allocInPool
  rw [if_neg (Nat.not_le.mpr hn)]
  simp

theorem free_constructed (env : Env β) (s : World β) (p : Nat)
    (h : s.pool = env.memory) (h0 : env.memory ≠ 0) :
    free env s p =
      if p < poolBegin env.memory ∨ poolEnd env.memory < p then
        some { s with je := env.je_free s.je p, calls := s.calls ++ [JeCall.free p] }
      else if env.ndebug = false ∧ ¬ (p - poolBegin env.memory) / CHUNKSIZE < CHUNKS then
        none
      else
        some { s with
          mem := Function.update (Function.update s.mem p (s.mem (headAddr env.memory)))
            (headAddr env.memory) p } := by
  unfold free freeFromPool freeFromPool64
  rw [getPool64_constructed env s h h0]
  by_cases hr : p < poolBegin env.memory ∨ poolEnd env.memory < p
  · simp only [if_pos hr]
  · simp only [if_neg hr]
    by_cases ha : env.ndebug = false ∧ ¬ (p - poolBegin env.memory) / CHUNKSIZE < CHUNKS
    · simp only [if_pos ha]
    · simp only [if_neg ha]

theorem malloc_pool (env : Env β) (s : World β) (n : Nat)
    (h : s.pool = env.memory) (h0 : env.memory ≠ 0) : (malloc env s n).2.pool = env.memory := by
  by_cases hn : n ≤ CHUNKSIZE
  · rw [malloc_small_constructed env s n h h0 hn]
    split_ifs <;> exact h
  · rw [malloc_large env s n (by omega)]
    exact h

theorem free_pool (env : Env β) (s s1 : World β) (p : Nat)
    (h : s.pool = env.memory) (h0 : env.memory ≠ 0) (hf : free env s p = some s1) :
    s1.pool = env.memory := by
  rw [free_constructed env s p h h0] at hf
  split_ifs at hf <;> simp only [Option.some.injEq] at hf <;> rw [← hf] <;> exact h

theorem step_pool (env : Env β) (s s1 : World β) (op : Op)
    (h : s.pool = env.memory) (h0 : env.memory ≠ 0) (hs : step env s op = some s1) :
    s1.pool = env.memory := by
  cases op with
  | malloc n =>
    simp only [step, Option.some.injEq] at hs
    rw [← hs]; exact malloc_pool env s n h h0
  | calloc c n =>
    simp only [step, Option.some.injEq] at hs
    rw [← hs]; exact h
  | realloc q n =>
    simp only [step, Option.some.injEq] at hs
    rw [← hs]; exact h
  | free q => exact free_pool env s s1 q h h0 hs

theorem run_pool (env : Env β) (h0 : env.memory ≠ 0) (ops : List Op) :
    ∀ s s1 : World β, s.pool = env.memory → run env s ops = some s1 → s1.pool = env.memory := by
  induction ops with
  | nil =>
    intro s s1 h hr
    simp only [run, Option.some.injEq] at hr
    rw [← hr]; exact h
  | cons op ops ih =>
    intro s s1 h hr
    unfold run at hr
    cases hst : step env s op with
    | none => rw [hst] at hr; simp at hr
    | some s2 =>
      rw [hst] at hr
      exact ih s2 s1 (step_pool env s s2 op h h0 hst) hr

/-! ## Claims C6, C7, C8, C9 -/

/-- C6 (pool bootstrap): the first call of `getPool64` (the static `pool` is
still `NULL`) leaves the head at chunk 0, the link of chunk `i` at chunk `i + 1`
for `i + 1 < CHUNKS` and the link of the last chunk `NULL`; the walk of the free
list from the head is exactly the `CHUNKS` chunk addresses in array order, which
are pairwise distinct. -/
theorem getPool64_bootstrap (env : Env β) (s : World β) (h : s.pool = 0)
    (h0 : env.memory ≠ 0) :
    poolHead env (getPool64 env s).2 = chunkAddr env.memory 0 ∧
    (∀ i, i + 1 < CHUNKS →
      chunkNext env (getPool64 env s).2 i = chunkAddr env.memory (i + 1)) ∧
    chunkNext env (getPool64 env s).2 (CHUNKS - 1) = 0 ∧
    freeList env (getPool64 env s).2 = some ((List.range CHUNKS).map (chunkAddr env.memory)) ∧
    ((List.range CHUNKS).map (chunkAddr env.memory)).Nodup ∧
    ((List.range CHUNKS).map (chunkAddr env.memory)).length = CHUNKS := by
  refine ⟨getPool64_first_head env s h, fun i hi => getPool64_first_next env s h i hi,
    getPool64_first_last env s h, ?_, ?_, ?_⟩
  · unfold freeList
    rw [getPool64_first_head env s h, ← linkTo_lt env.memory 0 CHUNKS_pos,
      walk_threaded env.memory h0 _ (getPool64_first_links env s h) CHUNKS 0 (by omega),
      List.range_eq_range']
  · exact (List.nodup_range CHUNKS).map (chunkAddr_injective env.memory)
  · rw [List.length_map, List.length_range]

theorem getPool64_bootstrap_witness :
    boot.pool = 0 ∧ sampleEnv.memory ≠ 0 ∧
    freeList sampleEnv (getPool64 sampleEnv boot).2
      = some ((List.range CHUNKS).map (chunkAddr sampleEnv.memory)) :=
  ⟨rfl, by decide, (getPool64_bootstrap sampleEnv boot rfl (by decide)).2.2.2.1⟩

/-- C7 (idempotent initialisation, sequential): on a constructed pool
`getPool64` returns the pool and changes nothing, and this stays so after any
sequence of calls of the four entry points: the pool stays constructed, so a
later `getPool64` again returns the same pool and leaves the head and every link
as the calls left them. -/
theorem getPool64_idempotent (env : Env β) (s : World β) (h : s.pool = env.memory)
    (h0 : env.memory ≠ 0) :
    getPool64 env s = (env.memory, s) ∧
    ∀ ops s1, run env s ops = some s1 →
      s1.pool = env.memory ∧ getPool64 env s1 = (env.memory, s1) := by
  refine ⟨getPool64_constructed env s h h0, fun ops s1 hr => ?_⟩
  have hp := run_pool env h0 ops s s1 h hr
  exact ⟨hp, getPool64_constructed env s1 hp h0⟩

theorem getPool64_idempotent_witness :
    (getPool64 sampleEnv boot).2.pool = sampleEnv.memory ∧ sampleEnv.memory ≠ 0 ∧
    getPool64 sampleEnv (getPool64 sampleEnv boot).2
      = (sampleEnv.memory, (getPool64 sampleEnv boot).2) :=
  ⟨rfl, by decide, (getPool64_idempotent sampleEnv (getPool64 sampleEnv boot).2 rfl (by decide)).1⟩

/-- C8 (zero-allocate and resize bypass the pool): in every state `calloc`
returns the result of `je_calloc` and `realloc` the result of `je_realloc`, on
the same arguments; the static `pool` and every word of memory are left as they
were, and the result does not depend on them. -/
theorem calloc_realloc_bypass (env : Env β) (s : World β) (count size ptr : Nat) :
    calloc env s count size =
      ((env.je_calloc s.je count size).1,
        { s with je := (env.je_calloc s.je count size).2,
                 calls := s.calls ++ [JeCall.calloc count size] }) ∧
    realloc env s ptr size =
      ((env.je_realloc s.je ptr size).1,
        { s with je := (env.je_realloc s.je ptr size).2,
                 calls := s.calls ++ [JeCall.realloc ptr size] }) ∧
    (calloc env s count size).2.pool = s.pool ∧ (calloc env s count size).2.mem = s.mem ∧
    (realloc env s ptr size).2.pool = s.pool ∧ (realloc env s ptr size).2.mem = s.mem ∧
    (∀ (q : Nat) (m : Nat → Nat),
      (calloc env { s with pool := q, mem := m } count size).1 = (calloc env s count size).1 ∧
      (realloc env { s with pool := q, mem := m } ptr size).1 = (realloc env s ptr size).1) :=
  ⟨rfl, rfl, rfl, rfl, rfl, rfl, fun _ _ => ⟨rfl, rfl⟩⟩

theorem getPool64_fst_ne_zero (env : Env β) (s : World β) (h0 : env.memory ≠ 0) :
    (getPool64 env s).1 ≠ 0 := by
  unfold getPool64
  split_ifs with hz
  · exact h0
  · exact hz

theorem null_release_routes (env : Env β) (s : World β) (h0 : env.memory ≠ 0) :
    free env s 0 =
      some { (getPool64 env s).2 with
        je := env.je_free (getPool64 env s).2.je 0,
        calls := (getPool64 env s).2.calls ++ [JeCall.free 0] } := by
  have hpos : 0 < poolBegin (getPool64 env s).1 :=
    Nat.pos_of_ne_zero (getPool64_fst_ne_zero env s h0)
  unfold free freeFromPool freeFromPool64
  simp only [if_pos (Or.inl hpos)]

/-- C9, as the code has it: `free(NULL)` always returns; `NULL` fails the range
check of `freeFromPool64`, so nothing is pushed on the free list and the pointer
is handed to `je_free`; the only change to the pool is the construction done by
`getPool64` when the pool was not constructed yet, and on a constructed pool the
static `pool` and every word of memory (head and links) are unchanged. -/
theorem free_null (env : Env β) (s : World β) (h0 : env.memory ≠ 0) :
    free env s 0 =
      some { (getPool64 env s).2 with
        je := env.je_free (getPool64 env s).2.je 0,
        calls := (getPool64 env s).2.calls ++ [JeCall.free 0] } ∧
    (s.pool = env.memory →
      free env s 0 =
        some { s with je := env.je_free s.je 0, calls := s.calls ++ [JeCall.free 0] }) := by
  refine ⟨null_release_routes env s h0, fun h => ?_⟩
  rw [null_release_routes env s h0, getPool64_constructed env s h h0]

theorem free_null_witness :
    sampleEnv.memory ≠ 0 ∧
    free sampleEnv boot 0 =
      some { (getPool64 sampleEnv boot).2 with
        je := sampleEnv.je_free (getPool64 sampleEnv boot).2.je 0,
        calls := (getPool64 sampleEnv boot).2.calls ++ [JeCall.free 0] } :=
  ⟨by decide, (free_null sampleEnv boot (by decide)).1⟩

/-- C9 fails as stated: at process start `free(NULL)` constructs the pool (the
static `pool` goes from `NULL` to `&memory`), and on the constructed pool
`free(NULL)` makes one call `je_free(NULL)`. -/
theorem free_null_counterexample :
    boot.pool = 0 ∧
    (free sampleEnv boot 0).map (fun w => w.pool) = some 4096 ∧
    (getPool64 sampleEnv boot).2.calls = [] ∧
    (free sampleEnv (getPool64 sampleEnv boot).2 0).map (fun w => w.calls)
      = some [JeCall.free 0] := by
  refine ⟨rfl, ?_, rfl, ?_⟩
  · rw [null_release_routes sampleEnv boot (by decide)]
    rfl
  · rw [null_release_routes sampleEnv (getPool64 sampleEnv boot).2 (by decide)]
    rfl

/-! ## Claim C1 -/

/-- C1 (tier routing by size).  (a) On every constructed pool with a non-empty
free list (the head is not `NULL`), whatever the chunks in use contain, `malloc`
of a size up to `CHUNKSIZE` returns the chunk that was the head, the new head is
that chunk's link and the backing allocator is not called; the head being
`NULL` or a chunk of the region, the address returned lies in
`[poolBegin, poolEnd)`, on a chunk boundary.  (b) In every state, `malloc` of a
larger size returns the result of `je_malloc` on that size, and the static
`pool`, the head and every link are unchanged; when the backing allocator only
returns addresses outside the storage of the pool, the result is not in the
region. -/
theorem malloc_tier_routing (env : Env β) (s : World β) (n : Nat) :
    (s.pool = env.memory → env.memory ≠ 0 → n ≤ CHUNKSIZE → poolHead env s ≠ 0 →
      malloc env s n =
        (poolHead env s,
          { s with mem := Function.update s.mem (headAddr env.memory) (s.mem (poolHead env s)) }) ∧
      (malloc env s n).2.calls = s.calls ∧ (malloc env s n).2.je = s.je ∧
      (IsLink env.memory (poolHead env s) →
        poolBegin env.memory ≤ (malloc env s n).1 ∧ (malloc env s n).1 < poolEnd env.memory ∧
        IsChunk env.memory (malloc env s n).1)) ∧
    (CHUNKSIZE < n →
      malloc env s n =
        ((env.je_malloc s.je n).1,
          { s with je := (env.je_malloc s.je n).2, calls := s.calls ++ [JeCall.malloc n] }) ∧
      (malloc env s n).2.pool = s.pool ∧ (malloc env s n).2.mem = s.mem ∧
      (BackingOutside env → inRegion env.memory (malloc env s n).1 = false)) := by
  constructor
  · intro hpool h0 hn hne
    have hm := malloc_small_constructed env s n hpool h0 hn
    rw [if_neg hne] at hm
    rw [hm]
    refine ⟨rfl, rfl, rfl, fun hl => ?_⟩
    have hc : IsChunk env.memory (poolHead env s) := by
      rcases hl with hz | hc
      · exact absurd hz hne
      · exact hc
    exact ⟨hc.1, hc.2.1, hc⟩
  · intro hn
    rw [malloc_large env s n hn]
    refine ⟨rfl, rfl, rfl, fun hb => ?_⟩
    unfold inRegion
    have := hb s.je n
    exact decide_eq_false (by omega)

/-! ## Release: ownership, reuse, and the invariant -/

theorem poolEnd_eq_headAddr (p : Nat) : poolEnd p = headAddr p := rfl

theorem free_chunk (env : Env β) (s : World β) (p : Nat)
    (h : s.pool = env.memory) (h0 : env.memory ≠ 0)
    (hb : poolBegin env.memory ≤ p) (he : p < poolEnd env.memory) :
    free env s p =
      some { s with
        mem := Function.update (Function.update s.mem p (s.mem (headAddr env.memory)))
          (headAddr env.memory) p } := by
  rw [free_constructed env s p h h0]
  have hr : ¬ (p < poolBegin env.memory ∨ poolEnd env.memory < p) := by omega
  have hi : (p - poolBegin env.memory) / CHUNKSIZE < CHUNKS := by
    unfold poolEnd at he
    unfold CHUNKSIZE at he ⊢
    omega
  rw [if_neg hr, if_neg (fun c => c.2 hi)]

theorem free_outside (env : Env β) (s : World β) (p : Nat)
    (h : s.pool = env.memory) (h0 : env.memory ≠ 0)
    (hr : p < poolBegin env.memory ∨ poolEnd env.memory < p) :
    free env s p =
      some { s with je := env.je_free s.je p, calls := s.calls ++ [JeCall.free p] } := by
  rw [free_constructed env s p h h0, if_pos hr]

theorem poolEnd_index (p : Nat) : (poolEnd p - poolBegin p) / CHUNKSIZE = CHUNKS := by
  unfold poolEnd CHUNKSIZE
  omega

theorem freeFromPool64_chunk (env : Env β) (s : World β) (p : Nat)
    (h : s.pool = env.memory) (h0 : env.memory ≠ 0)
    (hb : poolBegin env.memory ≤ p) (he : p < poolEnd env.memory) :
    freeFromPool64 env s p =
      some (true, { s with
        mem := Function.update (Function.update s.mem p (s.mem (headAddr env.memory)))
          (headAddr env.memory) p }) := by
  unfold freeFromPool64
  rw [getPool64_constructed env s h h0]
  have hr : ¬ (p < poolBegin env.memory ∨ poolEnd env.memory < p) := by omega
  have hi : (p - poolBegin env.memory) / CHUNKSIZE < CHUNKS := by
    unfold poolEnd at he
    unfold CHUNKSIZE at he ⊢
    omega
  have ha : ¬ (env.ndebug = false ∧ ¬ (p - poolBegin env.memory) / CHUNKSIZE < CHUNKS) :=
    fun c => c.2 hi
  simp only [if_neg hr, if_neg ha]

theorem freeFromPool64_outside (env : Env β) (s : World β) (p : Nat)
    (h : s.pool = env.memory) (h0 : env.memory ≠ 0)
    (hr : p < poolBegin env.memory ∨ poolEnd env.memory < p) :
    freeFromPool64 env s p = some (false, s) := by
  unfold freeFromPool64
  rw [getPool64_constructed env s h h0]
  simp only [if_pos hr]

theorem freeFromPool64_owned (env : Env β) (s : World β) (p : Nat)
    (h : s.pool = env.memory) (h0 : env.memory ≠ 0) (hp : p ≠ poolEnd env.memory) :
    (freeFromPool64 env s p).map Prod.fst = some (inRegion env.memory p) := by
  by_cases hr : p < poolBegin env.memory ∨ poolEnd env.memory < p
  · rw [freeFromPool64_outside env s p h h0 hr]
    unfold inRegion
    rw [decide_eq_false (by omega)]
    rfl
  · have hb : poolBegin env.memory ≤ p := by omega
    have he : p < poolEnd env.memory := by omega
    rw [freeFromPool64_chunk env s p h h0 hb he]
    unfold inRegion
    rw [decide_eq_true ⟨hb, he⟩]
    rfl

theorem freeFromPool64_at_poolEnd (env : Env β) (s : World β)
    (h : s.pool = env.memory) (h0 : env.memory ≠ 0) :
    freeFromPool64 env s (poolEnd env.memory) =
      if env.ndebug = false then none
      else some (true, { s with
        mem := Function.update s.mem (headAddr env.memory) (poolEnd env.memory) }) := by
  unfold freeFromPool64
  rw [getPool64_constructed env s h h0]
  have hr : ¬ (poolEnd env.memory < poolBegin env.memory ∨ poolEnd env.memory < poolEnd env.memory) := by
    unfold poolEnd; omega
  simp only [if_neg hr, poolEnd_index]
  by_cases hd : env.ndebug = false
  · rw [if_pos ⟨hd, Nat.lt_irrefl _⟩, if_pos hd]
  · rw [if_neg (fun c => hd c.1), if_neg hd, poolEnd_eq_headAddr, Function.update_idem]

theorem free_at_poolEnd (env : Env β) (s : World β)
    (h : s.pool = env.memory) (h0 : env.memory ≠ 0) :
    free env s (poolEnd env.memory) =
      if env.ndebug = false then none
      else some { s with
        mem := Function.update s.mem (headAddr env.memory) (poolEnd env.memory) } := by
  unfold free freeFromPool
  rw [freeFromPool64_at_poolEnd env s h h0]
  split_ifs <;> rfl

theorem not_isLink_poolEnd (memory : Nat) (h0 : memory ≠ 0) :
    ¬ IsLink memory (poolEnd memory) := by
  rintro (hz | hc)
  · unfold poolEnd poolBegin at hz; omega
  · exact Nat.lt_irrefl _ hc.2.1

/-- C4, at the pointer where the code departs from it: on a constructed pool,
`freeFromPool64(poolEnd)` passes the range check (`poolEnd < ptr` is false for
`ptr = poolEnd`) and computes index `CHUNKS`.  With assertions enabled the call,
and `free` with it, aborts; with `NDEBUG` it returns `true`, the head becomes
`poolEnd`, and `free` makes no call to the backing allocator.  In neither build
does it return `false` with the state unchanged. -/
theorem freeFromPool64_poolEnd (env : Env β) (s : World β)
    (h : s.pool = env.memory) (h0 : env.memory ≠ 0) :
    (poolEnd env.memory - poolBegin env.memory) / CHUNKSIZE = CHUNKS ∧
    freeFromPool64 env s (poolEnd env.memory) ≠ some (false, s) ∧
    (env.ndebug = false →
      freeFromPool64 env s (poolEnd env.memory) = none ∧
      free env s (poolEnd env.memory) = none) ∧
    (env.ndebug = true →
      freeFromPool64 env s (poolEnd env.memory) =
        some (true, { s with
          mem := Function.update s.mem (headAddr env.memory) (poolEnd env.memory) }) ∧
      free env s (poolEnd env.memory) =
        some { s with
          mem := Function.update s.mem (headAddr env.memory) (poolEnd env.memory) }) := by
  refine ⟨poolEnd_index env.memory, ?_, ?_, ?_⟩
  · rw [freeFromPool64_at_poolEnd env s h h0]
    split_ifs
    · exact fun c => Option.noConfusion c
    · intro c
      have := congrArg Prod.fst (Option.some.inj c)
      exact Bool.noConfusion this
  · intro hd
    rw [freeFromPool64_at_poolEnd env s h h0, free_at_poolEnd env s h h0, if_pos hd, if_pos hd]
    exact ⟨rfl, rfl⟩
  · intro hd
    have hn : ¬ env.ndebug = false := by rw [hd]; exact Bool.noConfusion
    rw [freeFromPool64_at_poolEnd env s h h0, free_at_poolEnd env s h h0, if_neg hn, if_neg hn]
    exact ⟨rfl, rfl⟩

theorem freeFromPool64_poolEnd_witness :
    (getPool64 sampleEnv boot).2.pool = sampleEnv.memory ∧ sampleEnv.memory ≠ 0 ∧
    sampleEnv.ndebug = false ∧
    free sampleEnv (getPool64 sampleEnv boot).2 (poolEnd sampleEnv.memory) = none :=
  ⟨rfl, by decide, rfl,
    ((freeFromPool64_poolEnd sampleEnv (getPool64 sampleEnv boot).2 rfl (by decide)).2.2.1 rfl).2⟩

/-- C5 (most-recently-freed-first reuse): on a constructed pool, exhausted or
not, `free` of a chunk pointer of the region returns, makes that chunk the head,
and the `malloc` of a size up to `CHUNKSIZE` that follows returns that same
pointer without calling the backing allocator, leaving the head where it was
before the `free`. -/
theorem free_then_malloc (env : Env β) (s : World β) (p n : Nat)
    (h : s.pool = env.memory) (h0 : env.memory ≠ 0) (hc : IsChunk env.memory p)
    (hn : n ≤ CHUNKSIZE) :
    ∃ s1, free env s p = some s1 ∧ poolHead env s1 = p ∧
      (malloc env s1 n).1 = p ∧ (malloc env s1 n).2.calls = s.calls ∧
      poolHead env (malloc env s1 n).2 = poolHead env s := by
  have hne : p ≠ headAddr env.memory := by
    rw [← poolEnd_eq_headAddr]; exact Nat.ne_of_lt hc.2.1
  have hp0 : p ≠ 0 := by
    have := hc.1
    unfold poolBegin at this
    omega
  refine ⟨_, free_chunk env s p h h0 hc.1 hc.2.1, ?_⟩
  have hh : poolHead env { s with
      mem := Function.update (Function.update s.mem p (s.mem (headAddr env.memory)))
        (headAddr env.memory) p } = p := by
    simp [poolHead]
  have hm := malloc_small_constructed env { s with
      mem := Function.update (Function.update s.mem p (s.mem (headAddr env.memory)))
        (headAddr env.memory) p } n h h0 hn
  rw [hh, if_neg hp0] at hm
  rw [hm]
  refine ⟨hh, rfl, rfl, ?_⟩
  simp [poolHead, Function.update_apply, hne]

theorem free_then_malloc_witness :
    (getPool64 sampleEnv boot).2.pool = sampleEnv.memory ∧ sampleEnv.memory ≠ 0 ∧
    IsChunk sampleEnv.memory 4112 ∧ 8 ≤ CHUNKSIZE ∧
    ∃ s1, free sampleEnv (getPool64 sampleEnv boot).2 4112 = some s1 ∧
      poolHead sampleEnv s1 = 4112 ∧ (malloc sampleEnv s1 8).1 = 4112 ∧
      (malloc sampleEnv s1 8).2.calls = (getPool64 sampleEnv boot).2.calls ∧
      poolHead sampleEnv (malloc sampleEnv s1 8).2
        = poolHead sampleEnv (getPool64 sampleEnv boot).2 :=
  ⟨rfl, by decide, by decide, by decide,
    free_then_malloc sampleEnv (getPool64 sampleEnv boot).2 4112 8 rfl (by decide) (by decide)
      (by decide)⟩

/-! ## The link invariant along calls -/

theorem chunkAddr_ne_headAddr (memory i : Nat) (h : i < CHUNKS) :
    chunkAddr memory i ≠ headAddr memory :=
  Nat.ne_of_lt (chunkAddr_lt_headAddr memory i h)

theorem poolInv_malloc (env : Env β) (s : World β) (n : Nat)
    (hinv : PoolInv env s) (h0 : env.memory ≠ 0) : PoolInv env (malloc env s n).2 := by
  by_cases hn : n ≤ CHUNKSIZE
  · rw [malloc_small_constructed env s n hinv.1 h0 hn]
    split_ifs with hz
    · exact hinv
    · have hc : IsChunk env.memory (poolHead env s) := by
        rcases hinv.2.1 with hz1 | hc
        · exact absurd hz1 hz
        · exact hc
      obtain ⟨j, hj, hje⟩ := (isChunk_iff _ _).1 hc
      refine ⟨hinv.1, ?_, ?_⟩
      · have := hinv.2.2 j hj
        unfold chunkNext at this
        rw [← hje] at this
        simpa [poolHead] using this
      · intro i hi
        have := hinv.2.2 i hi
        simpa [chunkNext, Function.update_apply, chunkAddr_ne_headAddr _ _ hi] using this
  · rw [malloc_large env s n (by omega)]
    exact hinv

theorem poolInv_free_chunk (env : Env β) (s : World β) (p : Nat)
    (hinv : PoolInv env s) (h0 : env.memory ≠ 0) (hc : IsChunk env.memory p) :
    ∃ s1, free env s p = some s1 ∧ PoolInv env s1 := by
  refine ⟨_, free_chunk env s p hinv.1 h0 hc.1 hc.2.1, hinv.1, ?_, ?_⟩
  · simpa [poolHead] using Or.inr hc
  · intro i hi
    have hl := hinv.2.2 i hi
    have hh := hinv.2.1
    unfold chunkNext at hl ⊢
    unfold poolHead at hh
    simp only [Function.update_apply, if_neg (chunkAddr_ne_headAddr _ _ hi)]
    split_ifs
    · exact hh
    · exact hl

theorem poolInv_free_outside (env : Env β) (s : World β) (p : Nat)
    (hinv : PoolInv env s) (h0 : env.memory ≠ 0)
    (hr : p < poolBegin env.memory ∨ poolEnd env.memory < p) :
    ∃ s1, free env s p = some s1 ∧ PoolInv env s1 :=
  ⟨_, free_outside env s p hinv.1 h0 hr, hinv⟩

theorem chunkAligned_cases (memory p : Nat) (ha : ChunkAligned memory p) :
    (p < poolBegin memory ∨ poolEnd memory < p) ∨ IsChunk memory p ∨ p = poolEnd memory := by
  unfold IsChunk poolEnd poolBegin
  unfold ChunkAligned at ha
  unfold CHUNKSIZE at ha ⊢
  omega

theorem poolInv_step_assert (env : Env β) (s s1 : World β) (op : Op)
    (hd : env.ndebug = false) (hinv : PoolInv env s) (h0 : env.memory ≠ 0)
    (ha : AlignedOp env.memory op) (hs : step env s op = some s1) : PoolInv env s1 := by
  cases op with
  | malloc n =>
    simp only [step, Option.some.injEq] at hs
    rw [← hs]; exact poolInv_malloc env s n hinv h0
  | calloc c n =>
    simp only [step, Option.some.injEq] at hs
    rw [← hs]; exact hinv
  | realloc q n =>
    simp only [step, Option.some.injEq] at hs
    rw [← hs]; exact hinv
  | free q =>
    simp only [step] at hs
    rcases chunkAligned_cases env.memory q ha with hr | hc | he
    · obtain ⟨s2, h2, hi2⟩ := poolInv_free_outside env s q hinv h0 hr
      rw [h2, Option.some.injEq] at hs
      rw [← hs]; exact hi2
    · obtain ⟨s2, h2, hi2⟩ := poolInv_free_chunk env s q hinv h0 hc
      rw [h2, Option.some.injEq] at hs
      rw [← hs]; exact hi2
    · rw [he, free_at_poolEnd env s hinv.1 h0, if_pos hd] at hs
      exact Option.noConfusion hs

theorem poolInv_run_assert (env : Env β) (hd : env.ndebug = false) (h0 : env.memory ≠ 0)
    (ops : List Op) :
    ∀ s s1 : World β, PoolInv env s → (∀ op, op ∈ ops → AlignedOp env.memory op) →
      run env s ops = some s1 → PoolInv env s1 := by
  induction ops with
  | nil =>
    intro s s1 hinv _ hr
    simp only [run, Option.some.injEq] at hr
    rw [← hr]; exact hinv
  | cons op ops ih =>
    intro s s1 hinv ha hr
    unfold run at hr
    cases hst : step env s op with
    | none => rw [hst] at hr; simp at hr
    | some s2 =>
      rw [hst] at hr
      exact ih s2 s1
        (poolInv_step_assert env s s2 op hd hinv h0 (ha op (List.mem_cons_self _ _)) hst)
        (fun o ho => ha o (List.mem_cons_of_mem _ ho)) hr

/-- The pointer `poolEnd` is `pool_begin + CHUNKS * CHUNKSIZE`, on a chunk
boundary and outside the region.  In a build with `NDEBUG`, from any constructed pool whose head and links are in
the region, `free(poolEnd)` returns and leaves the head equal to `poolEnd`,
which is neither `NULL` nor a chunk of `[poolBegin, poolEnd)`. -/
theorem free_poolEnd_head_escapes (env : Env β) (s : World β) (hinv : PoolInv env s)
    (h0 : env.memory ≠ 0) (hd : env.ndebug = true) :
    AlignedOp env.memory (Op.free (poolEnd env.memory)) ∧
    ∃ s1, run env s [Op.free (poolEnd env.memory)] = some s1 ∧
      poolHead env s1 = poolEnd env.memory ∧
      ¬ IsLink env.memory (poolHead env s1) := by
  have hn : ¬ env.ndebug = false := by rw [hd]; exact Bool.noConfusion
  refine ⟨?_, { s with
    mem := Function.update s.mem (headAddr env.memory) (poolEnd env.memory) }, ?_, ?_, ?_⟩
  · right
    unfold poolEnd poolBegin CHUNKSIZE
    omega
  · simp only [run, step]
    rw [free_at_poolEnd env s hinv.1 h0, if_neg hn]
  · simp [poolHead]
  · have : poolHead env { s with
        mem := Function.update s.mem (headAddr env.memory) (poolEnd env.memory) }
        = poolEnd env.memory := by simp [poolHead]
    rw [this]
    exact not_isLink_poolEnd env.memory h0

theorem free_poolEnd_head_escapes_witness :
    PoolInv sampleEnvNdebug (getPool64 sampleEnvNdebug boot).2 ∧
    sampleEnvNdebug.memory ≠ 0 ∧ sampleEnvNdebug.ndebug = true ∧
    ∃ s1, run sampleEnvNdebug (getPool64 sampleEnvNdebug boot).2
        [Op.free (poolEnd sampleEnvNdebug.memory)] = some s1 ∧
      poolHead sampleEnvNdebug s1 = poolEnd sampleEnvNdebug.memory ∧
      ¬ IsLink sampleEnvNdebug.memory (poolHead sampleEnvNdebug s1) :=
  ⟨getPool64_poolInv sampleEnvNdebug boot rfl, by decide, rfl,
    (free_poolEnd_head_escapes sampleEnvNdebug (getPool64 sampleEnvNdebug boot).2
      (getPool64_poolInv sampleEnvNdebug boot rfl) (by decide) rfl).2⟩

/-! ## Exhausting the pool -/

theorem getPool64_threaded (env : Env β) (s : World β) (h : s.pool = 0) :
    Threaded env (getPool64 env s).2 0 :=
  ⟨(getPool64_first_pool env s h).2.1,
    by rw [getPool64_first_head env s h, linkTo_lt _ _ CHUNKS_pos],
    fun j hj => getPool64_first_links env s h j hj⟩

theorem malloc_threaded (env : Env β) (s : World β) (i n : Nat) (h0 : env.memory ≠ 0)
    (ht : Threaded env s i) (hi : i < CHUNKS) (hn : n ≤ CHUNKSIZE) :
    (malloc env s n).1 = chunkAddr env.memory i ∧ Threaded env (malloc env s n).2 (i + 1) ∧
      (malloc env s n).2.calls = s.calls ∧ (malloc env s n).2.je = s.je := by
  have hh : poolHead env s = chunkAddr env.memory i := by rw [ht.2.1, linkTo_lt _ _ hi]
  have hm := malloc_small_constructed env s n ht.1 h0 hn
  rw [hh, if_neg (chunkAddr_ne_zero _ _ h0)] at hm
  rw [hm]
  refine ⟨rfl, ⟨ht.1, ?_, ?_⟩, rfl, rfl⟩
  · have := ht.2.2 i hi
    unfold chunkNext at this
    simpa [poolHead] using this
  · intro j hj
    have := ht.2.2 j hj
    simpa [chunkNext, Function.update_apply, chunkAddr_ne_headAddr _ _ hj] using this

theorem mallocs_threaded (env : Env β) (h0 : env.memory ≠ 0) (ns : List Nat) :
    ∀ (s : World β) (i : Nat), Threaded env s i → i + ns.length ≤ CHUNKS →
      (∀ n, n ∈ ns → n ≤ CHUNKSIZE) →
      (mallocs env s ns).1 = (List.range' i ns.length).map (chunkAddr env.memory) ∧
      Threaded env (mallocs env s ns).2 (i + ns.length) ∧
      (mallocs env s ns).2.calls = s.calls ∧ (mallocs env s ns).2.je = s.je := by
  induction ns with
  | nil =>
    intro s i ht _ _
    exact ⟨rfl, ht, rfl, rfl⟩
  | cons n ns ih =>
    intro s i ht hlen hsm
    rw [List.length_cons] at hlen
    obtain ⟨h1, h2, h3, h4⟩ :=
      malloc_threaded env s i n h0 ht (by omega) (hsm n (List.mem_cons_self _ _))
    obtain ⟨k1, k2, k3, k4⟩ :=
      ih (malloc env s n).2 (i + 1) h2 (by omega) (fun m hm => hsm m (List.mem_cons_of_mem _ hm))
    unfold mallocs
    refine ⟨?_, ?_, ?_, ?_⟩
    · simp only [List.length_cons, List.range'_succ, List.map_cons]
      rw [h1, k1]
    · rw [List.length_cons, ← Nat.add_assoc, Nat.add_right_comm]
      exact k2
    · rw [k3, h3]
    · rw [k4, h4]

theorem malloc_null_from_backing (env : Env β) (t : World β) (m : Nat)
    (h : t.pool = env.memory) (h0 : env.memory ≠ 0) (hz : (malloc env t m).1 = 0) :
    (env.je_malloc t.je m).1 = 0 := by
  by_cases hm : m ≤ CHUNKSIZE
  · rw [malloc_small_constructed env t m h h0 hm] at hz
    split_ifs at hz with hh
    · exact hz
    · exact absurd hz hh
  · rw [malloc_large env t m (by omega)] at hz
    exact hz

/-- C2 (exhaustion fallback): from a freshly constructed pool, `CHUNKS`
consecutive `malloc` calls of sizes up to `CHUNKSIZE` return the chunk addresses
`&chunks[0]`, ..., `&chunks[CHUNKS - 1]`: `CHUNKS` pairwise distinct pointers in
`[poolBegin, poolEnd)`, with no call to the backing allocator.  The head is then
`NULL`, and one more such `malloc` returns exactly the result of `je_malloc` on
that size.  On any constructed pool `malloc` returns `NULL` only when
`je_malloc` did. -/
theorem exhaustion_fallback (env : Env β) (s : World β) (ns : List Nat) (n : Nat)
    (h : s.pool = 0) (h0 : env.memory ≠ 0) (hlen : ns.length = CHUNKS)
    (hsm : ∀ k, k ∈ ns → k ≤ CHUNKSIZE) (hn : n ≤ CHUNKSIZE) :
    (mallocs env (getPool64 env s).2 ns).1 = (List.range CHUNKS).map (chunkAddr env.memory) ∧
    (mallocs env (getPool64 env s).2 ns).1.length = CHUNKS ∧
    (mallocs env (getPool64 env s).2 ns).1.Nodup ∧
    (∀ p, p ∈ (mallocs env (getPool64 env s).2 ns).1 →
      poolBegin env.memory ≤ p ∧ p < poolEnd env.memory) ∧
    (mallocs env (getPool64 env s).2 ns).2.calls = s.calls ∧
    poolHead env (mallocs env (getPool64 env s).2 ns).2 = 0 ∧
    malloc env (mallocs env (getPool64 env s).2 ns).2 n =
      ((env.je_malloc (mallocs env (getPool64 env s).2 ns).2.je n).1,
        { (mallocs env (getPool64 env s).2 ns).2 with
          je := (env.je_malloc (mallocs env (getPool64 env s).2 ns).2.je n).2,
          calls := (mallocs env (getPool64 env s).2 ns).2.calls ++ [JeCall.malloc n] }) ∧
    (∀ (t : World β) (m : Nat), t.pool = env.memory → (malloc env t m).1 = 0 →
      (env.je_malloc t.je m).1 = 0) := by
  obtain ⟨k1, k2, k3, _⟩ :=
    mallocs_threaded env h0 ns (getPool64 env s).2 0 (getPool64_threaded env s h)
      (by omega) hsm
  rw [hlen] at k1 k2
  rw [← List.range_eq_range'] at k1
  have hhead : poolHead env (mallocs env (getPool64 env s).2 ns).2 = 0 := by
    rw [k2.2.1, linkTo_ge _ _ (by omega)]
  refine ⟨k1, ?_, ?_, ?_, ?_, hhead, ?_, fun t m ht hz => malloc_null_from_backing env t m ht h0 hz⟩
  · rw [k1, List.length_map, List.length_range]
  · rw [k1]
    exact (List.nodup_range CHUNKS).map (chunkAddr_injective env.memory)
  · intro p hp
    rw [k1, List.mem_map] at hp
    obtain ⟨i, hi, rfl⟩ := hp
    have hc := isChunk_chunkAddr env.memory i (List.mem_range.1 hi)
    exact ⟨hc.1, hc.2.1⟩
  · rw [k3, (getPool64_first_pool env s h).2.2.2]
  · have hm := malloc_small_constructed env _ n k2.1 h0 hn
    rw [hhead, if_pos rfl] at hm
    exact hm

theorem exhaustion_fallback_witness :
    boot.pool = 0 ∧ sampleEnv.memory ≠ 0 ∧ (List.replicate CHUNKS 8).length = CHUNKS ∧
    (∀ k, k ∈ List.replicate CHUNKS 8 → k ≤ CHUNKSIZE) ∧ 8 ≤ CHUNKSIZE ∧
    (mallocs sampleEnv (getPool64 sampleEnv boot).2 (List.replicate CHUNKS 8)).1
      = (List.range CHUNKS).map (chunkAddr sampleEnv.memory) := by
  have hsm : ∀ k, k ∈ List.replicate CHUNKS 8 → k ≤ CHUNKSIZE := fun k hk => by
    rw [List.eq_of_mem_replicate hk]; decide
  exact ⟨rfl, by decide, List.length_replicate _ _, hsm, by decide,
    (exhaustion_fallback sampleEnv boot (List.replicate CHUNKS 8) 8 rfl (by decide)
      (List.length_replicate _ _) hsm (by decide)).1⟩

/-! ## No double issue -/

theorem walk_of_chain (mem : Nat → Nat) (l : List Nat) :
    ∀ fuel p, Chain mem p l → l.length ≤ fuel → walk mem fuel p = some l := by
  induction l with
  | nil =>
    intro fuel p hc _
    have hp : p = 0 := hc
    cases fuel <;> simp [walk, hp]
  | cons a l ih =>
    intro fuel p hc hlen
    obtain ⟨hp, ha, hrest⟩ := hc
    cases fuel with
    | zero => simp at hlen
    | succ f =>
      rw [List.length_cons] at hlen
      unfold walk
      rw [hp, if_neg ha, ih f (mem a) hrest (by omega)]
      rfl

theorem chain_update (x v : Nat) (mem : Nat → Nat) (l : List Nat) :
    ∀ p, Chain mem p l → (∀ a, a ∈ l → a ≠ x) → Chain (Function.update mem x v) p l := by
  induction l with
  | nil => intro p hc _; exact hc
  | cons a l ih =>
    intro p hc hne
    obtain ⟨hp, ha, hrest⟩ := hc
    refine ⟨hp, ha, ?_⟩
    rw [Function.update_apply, if_neg (hne a (List.mem_cons_self _ _))]
    exact ih (mem a) hrest (fun b hb => hne b (List.mem_cons_of_mem _ hb))

theorem chain_threaded (memory : Nat) (h0 : memory ≠ 0) (mem : Nat → Nat)
    (hm : ∀ j, j < CHUNKS → mem (chunkAddr memory j) = linkTo memory (j + 1)) :
    ∀ k i, i + k = CHUNKS →
      Chain mem (linkTo memory i) ((List.range' i k).map (chunkAddr memory)) := by
  intro k
  induction k with
  | zero =>
    intro i hi
    exact linkTo_ge memory i (by omega)
  | succ k ih =>
    intro i hi
    have hlt : i < CHUNKS := by omega
    refine ⟨linkTo_lt memory i hlt, chunkAddr_ne_zero memory i h0, ?_⟩
    rw [hm i hlt]
    exact ih (i + 1) (by omega)

theorem inRegion_of_isChunk (memory a : Nat) (h : IsChunk memory a) : inRegion memory a = true := by
  unfold inRegion
  exact decide_eq_true ⟨h.1, h.2.1⟩

theorem inRegion_of_outside (memory a : Nat)
    (h : a < poolBegin memory ∨ poolEnd memory < a) : inRegion memory a = false := by
  unfold inRegion
  exact decide_eq_false (by omega)

theorem noDoubleIssue_of_liveInv (env : Env β) (s : World β) (live : List Nat)
    (h : LiveInv env s live) : NoDoubleIssue env s live := by
  obtain ⟨_, _, l, hc, hnd, hch, hdis, hund, hlen⟩ := h
  exact ⟨l, walk_of_chain s.mem l CHUNKS _ hc (by omega), hnd, hch, hdis, hund, hlen⟩

theorem liveInv_getPool64 (env : Env β) (s : World β) (h : s.pool = 0) (h0 : env.memory ≠ 0) :
    LiveInv env (getPool64 env s).2 [] := by
  refine ⟨(getPool64_first_pool env s h).2.1, fun a ha => absurd ha (List.not_mem_nil a),
    (List.range' 0 CHUNKS).map (chunkAddr env.memory), ?_, ?_, ?_,
    fun a _ => List.not_mem_nil a, List.nodup_nil, ?_⟩
  · rw [getPool64_first_head env s h, ← linkTo_lt env.memory 0 CHUNKS_pos]
    exact chain_threaded env.memory h0 _ (getPool64_first_links env s h) CHUNKS 0 (by omega)
  · rw [← List.range_eq_range']
    exact (List.nodup_range CHUNKS).map (chunkAddr_injective env.memory)
  · intro a ha
    rw [← List.range_eq_range', List.mem_map] at ha
    obtain ⟨i, hi, rfl⟩ := ha
    exact isChunk_chunkAddr env.memory i (List.mem_range.1 hi)
  · simp [inUse]

theorem isChunk_ne_headAddr (memory a : Nat) (h : IsChunk memory a) : a ≠ headAddr memory := by
  rw [← poolEnd_eq_headAddr]; exact Nat.ne_of_lt h.2.1

theorem liveInv_malloc (env : Env β) (s : World β) (live : List Nat) (n : Nat)
    (h0 : env.memory ≠ 0) (hb : BackingOutside env) (hn : n ≤ CHUNKSIZE)
    (h : LiveInv env s live) :
    LiveInv env (malloc env s n).2 ((malloc env s n).1 :: live) := by
  obtain ⟨hp, hlive, l, hc, hnd, hch, hdis, hund, hlen⟩ := h
  rw [malloc_small_constructed env s n hp h0 hn]
  by_cases hz : poolHead env s = 0
  · rw [if_pos hz]
    have hout := hb s.je n
    refine ⟨hp, ?_, l, hc, hnd, hch, ?_, ?_, ?_⟩
    · intro a ha
      rcases List.mem_cons.1 ha with rfl | ha
      · exact Or.inr hout
      · exact hlive a ha
    · intro a ha hmem
      rcases List.mem_cons.1 hmem with rfl | hmem
      · have := hch _ ha
        have h1 := this.1
        have h2 := this.2.1
        omega
      · exact hdis a ha hmem
    · simpa [inUse, List.filter_cons, inRegion_of_outside _ _ hout] using hund
    · simpa [inUse, List.filter_cons, inRegion_of_outside _ _ hout] using hlen
  · rw [if_neg hz]
    cases l with
    | nil => exact absurd hc hz
    | cons a t =>
      obtain ⟨hpa, ha0, hrest⟩ := hc
      have hca : IsChunk env.memory a := hch a (List.mem_cons_self _ _)
      have hat : a ∉ t := (List.nodup_cons.1 hnd).1
      have hal : a ∉ live := hdis a (List.mem_cons_self _ _)
      have hin : inUse env.memory (poolHead env s :: live) = a :: inUse env.memory live := by
        rw [hpa]
        simp [inUse, List.filter_cons, inRegion_of_isChunk _ _ hca]
      refine ⟨hp, ?_, t, ?_, (List.nodup_cons.1 hnd).2,
        fun b hb => hch b (List.mem_cons_of_mem _ hb), ?_, ?_, ?_⟩
      · intro b hb
        rcases List.mem_cons.1 hb with rfl | hb
        · rw [hpa]; exact Or.inl hca
        · exact hlive b hb
      · have hhead : poolHead env { s with
            mem := Function.update s.mem (headAddr env.memory) (s.mem (poolHead env s)) }
            = s.mem a := by
          rw [hpa]; simp [poolHead]
        rw [hhead]
        exact chain_update _ _ _ t _ hrest
          (fun b hb => isChunk_ne_headAddr _ _ (hch b (List.mem_cons_of_mem _ hb)))
      · intro b hb hmem
        rcases List.mem_cons.1 hmem with rfl | hmem
        · rw [hpa] at hb; exact hat hb
        · exact hdis b (List.mem_cons_of_mem _ hb) hmem
      · rw [hin]
        refine List.nodup_cons.2 ⟨fun hmem => hal (List.mem_filter.1 hmem).1, hund⟩
      · rw [hin]
        simp only [List.length_cons] at hlen ⊢
        omega

theorem liveInv_free (env : Env β) (s : World β) (live : List Nat) (p : Nat)
    (h0 : env.memory ≠ 0) (hmem : p ∈ live) (h : LiveInv env s live) :
    ∃ s1, free env s p = some s1 ∧ LiveInv env s1 (live.erase p) := by
  obtain ⟨hp, hlive, l, hc, hnd, hch, hdis, hund, hlen⟩ := h
  have herase : inUse env.memory (live.erase p) = (inUse env.memory live).erase p := by
    unfold inUse
    rw [List.erase_filter]
  have hpl : p ∉ l := fun hin => hdis p hin hmem
  rcases hlive p hmem with hcp | hout
  · refine ⟨_, free_chunk env s p hp h0 hcp.1 hcp.2.1, hp,
      fun a ha => hlive a (List.mem_of_mem_erase ha), p :: l, ?_, ?_, ?_, ?_, ?_, ?_⟩
    · have hp0 : p ≠ 0 := by
        have := hcp.1
        unfold poolBegin at this
        omega
      have hne : p ≠ headAddr env.memory := isChunk_ne_headAddr _ _ hcp
      refine ⟨by simp [poolHead], hp0, ?_⟩
      have hval : Function.update (Function.update s.mem p (s.mem (headAddr env.memory)))
          (headAddr env.memory) p p = poolHead env s := by
        simp [Function.update_apply, hne, poolHead]
      show Chain (Function.update (Function.update s.mem p (s.mem (headAddr env.memory)))
          (headAddr env.memory) p)
        (Function.update (Function.update s.mem p (s.mem (headAddr env.memory)))
          (headAddr env.memory) p p) l
      rw [hval]
      exact chain_update _ _ _ l _
        (chain_update _ _ _ l _ hc (fun a ha c => hpl (c ▸ ha)))
        (fun a ha => isChunk_ne_headAddr _ _ (hch a ha))
    · exact List.nodup_cons.2 ⟨hpl, hnd⟩
    · intro a ha
      rcases List.mem_cons.1 ha with rfl | ha
      · exact hcp
      · exact hch a ha
    · intro a ha hin
      rcases List.mem_cons.1 ha with rfl | ha
      · have h1 : a ∈ inUse env.memory (live.erase a) :=
          List.mem_filter.2 ⟨hin, inRegion_of_isChunk _ _ hcp⟩
        rw [herase] at h1
        exact hund.not_mem_erase h1
      · exact hdis a ha (List.mem_of_mem_erase hin)
    · rw [herase]; exact hund.erase p
    · have hpin : p ∈ inUse env.memory live :=
        List.mem_filter.2 ⟨hmem, inRegion_of_isChunk _ _ hcp⟩
      have hpos := List.length_pos_of_mem hpin
      rw [herase, List.length_erase_of_mem hpin, List.length_cons]
      omega
  · refine ⟨_, free_outside env s p hp h0 hout, hp,
      fun a ha => hlive a (List.mem_of_mem_erase ha), l, hc, hnd, hch,
      fun a ha hin => hdis a ha (List.mem_of_mem_erase hin), ?_, ?_⟩
    · rw [herase]; exact hund.erase p
    · have hnin : p ∉ inUse env.memory live := fun hin => by
        have := (List.mem_filter.1 hin).2
        rw [inRegion_of_outside _ _ hout] at this
        exact Bool.noConfusion this
      rw [herase, List.erase_of_not_mem hnin]
      exact hlen

theorem liveInv_runLive (env : Env β) (h0 : env.memory ≠ 0) (hb : BackingOutside env)
    (ops : List Op) :
    ∀ (s : World β) (live : List Nat), LiveInv env s live → Disciplined env s live ops →
      ∃ s1 live1, runLive env s live ops = some (s1, live1) ∧ LiveInv env s1 live1 := by
  induction ops with
  | nil =>
    intro s live hinv _
    exact ⟨s, live, rfl, hinv⟩
  | cons op ops ih =>
    intro s live hinv hd
    cases op with
    | malloc n =>
      obtain ⟨hn, hrest⟩ := hd
      exact ih _ _ (liveInv_malloc env s live n h0 hb hn hinv) hrest
    | free p =>
      obtain ⟨hmem, hrest⟩ := hd
      obtain ⟨s1, hf, hinv1⟩ := liveInv_free env s live p h0 hmem hinv
      obtain ⟨s2, live2, hr, hinv2⟩ := ih s1 _ hinv1 (hrest s1 hf)
      refine ⟨s2, live2, ?_, hinv2⟩
      simp only [runLive, hf]
      exact hr
    | calloc c n => exact False.elim hd
    | realloc q n => exact False.elim hd

theorem disciplined_append (env : Env β) (pre suf : List Op) :
    ∀ (s : World β) (live : List Nat), Disciplined env s live (pre ++ suf) →
      Disciplined env s live pre := by
  induction pre with
  | nil => intro s live _; exact trivial
  | cons op pre ih =>
    intro s live hd
    cases op with
    | malloc n => exact ⟨hd.1, ih _ _ hd.2⟩
    | free p => exact ⟨hd.1, fun s1 h1 => ih _ _ (hd.2 s1 h1)⟩
    | calloc c n => exact False.elim hd
    | realloc q n => exact False.elim hd

theorem fresh_of_liveInv (env : Env β) (s : World β) (live : List Nat) (n : Nat)
    (h0 : env.memory ≠ 0) (hb : BackingOutside env) (hn : n ≤ CHUNKSIZE)
    (h : LiveInv env s live) (hr : inRegion env.memory (malloc env s n).1 = true) :
    (malloc env s n).1 ∉ live := by
  obtain ⟨_, _, _, _, _, _, _, hund, _⟩ := liveInv_malloc env s live n h0 hb hn h
  intro hmem
  have h1 : inUse env.memory ((malloc env s n).1 :: live)
      = (malloc env s n).1 :: inUse env.memory live := by
    simp [inUse, List.filter_cons, hr]
  rw [h1] at hund
  exact (List.nodup_cons.1 hund).1 (List.mem_filter.2 ⟨hmem, hr⟩)

theorem freed_on_list (env : Env β) (s : World β) (live : List Nat) (p : Nat)
    (h0 : env.memory ≠ 0) (hmem : p ∈ live) (hreg : inRegion env.memory p = true)
    (h : LiveInv env s live) :
    ∃ s2 t, free env s p = some s2 ∧ freeList env s2 = some (p :: t) := by
  have hcp : IsChunk env.memory p := by
    rcases h.2.1 p hmem with hc | hout
    · exact hc
    · rw [inRegion_of_outside _ _ hout] at hreg
      exact Bool.noConfusion hreg
  obtain ⟨s2, hf, hinv2⟩ := liveInv_free env s live p h0 hmem h
  have hs2 := hf
  rw [free_chunk env s p h.1 h0 hcp.1 hcp.2.1, Option.some.injEq] at hs2
  have hhead : poolHead env s2 = p := by
    rw [← hs2]; simp [poolHead]
  obtain ⟨_, _, l, hc, _, _, _, _, hlen⟩ := hinv2
  have hp0 : p ≠ 0 := by
    have := hcp.1
    unfold poolBegin at this
    omega
  cases l with
  | nil =>
    have hz : poolHead env s2 = 0 := hc
    rw [hhead] at hz
    exact absurd hz hp0
  | cons a t =>
    have ha : poolHead env s2 = a := hc.1
    refine ⟨s2, t, hf, ?_⟩
    unfold freeList
    rw [walk_of_chain s2.mem (a :: t) CHUNKS _ hc (by omega), ← ha, hhead]

/-- C3 (no double-issue): start from a freshly constructed pool with nothing
outstanding and let the backing allocator return only addresses outside the
storage of the pool.  Take any sequence of `malloc` calls of sizes up to
`CHUNKSIZE` and `free` calls in which every freed pointer was returned by an
earlier `malloc` and not freed since.  After every call of the sequence (every
initial part `pre`) the run has not aborted, the free list is a
`NULL`-terminated list of pairwise distinct chunks of the array, none of them
outstanding, no pool chunk is outstanding twice, and the length of the free list
plus the number of pool chunks in use is `CHUNKS`; a pointer of the region
that the next `malloc` returns is not outstanding at that moment; and freeing an
outstanding pointer of the region puts that chunk at the front of the free list,
from where it can be returned again. -/
theorem no_double_issue (env : Env β) (s0 : World β) (ops : List Op)
    (h : s0.pool = 0) (h0 : env.memory ≠ 0) (hb : BackingOutside env)
    (hd : Disciplined env (getPool64 env s0).2 [] ops) :
    ∀ pre suf, ops = pre ++ suf →
      ∃ s1 live, runLive env (getPool64 env s0).2 [] pre = some (s1, live) ∧
        NoDoubleIssue env s1 live ∧
        (∀ n, n ≤ CHUNKSIZE → inRegion env.memory (malloc env s1 n).1 = true →
          (malloc env s1 n).1 ∉ live) ∧
        (∀ p, p ∈ live → inRegion env.memory p = true →
          ∃ s2 t, free env s1 p = some s2 ∧ freeList env s2 = some (p :: t)) := by
  intro pre suf hsplit
  rw [hsplit] at hd
  obtain ⟨s1, live, hr, hinv⟩ :=
    liveInv_runLive env h0 hb pre _ _ (liveInv_getPool64 env s0 h h0)
      (disciplined_append env pre suf _ _ hd)
  exact ⟨s1, live, hr, noDoubleIssue_of_liveInv env s1 live hinv,
    fun n hn hreg => fresh_of_liveInv env s1 live n h0 hb hn hinv hreg,
    fun p hmem hreg => freed_on_list env s1 live p h0 hmem hreg hinv⟩

theorem sampleEnv_backingOutside : BackingOutside sampleEnv := by
  intro b n
  right
  show 4096 + 16 * (1024 * 512) < 16777216 + b
  omega

theorem no_double_issue_witness :
    boot.pool = 0 ∧ sampleEnv.memory ≠ 0 ∧ BackingOutside sampleEnv ∧
    Disciplined sampleEnv (getPool64 sampleEnv boot).2 []
      [Op.malloc 8, Op.free (malloc sampleEnv (getPool64 sampleEnv boot).2 8).1] ∧
    ∃ s1 live, runLive sampleEnv (getPool64 sampleEnv boot).2 []
        [Op.malloc 8, Op.free (malloc sampleEnv (getPool64 sampleEnv boot).2 8).1]
        = some (s1, live) ∧ NoDoubleIssue sampleEnv s1 live := by
  have hd : Disciplined sampleEnv (getPool64 sampleEnv boot).2 []
      [Op.malloc 8, Op.free (malloc sampleEnv (getPool64 sampleEnv boot).2 8).1] :=
    ⟨by decide, List.mem_cons_self _ _, fun _ _ => trivial⟩
  obtain ⟨s1, live, hr, hnd, _⟩ :=
    no_double_issue sampleEnv boot _ rfl (by decide) sampleEnv_backingOutside hd _ []
      (List.append_nil _).symm
  exact ⟨rfl, by decide, sampleEnv_backingOutside, hd, s1, live, hr, hnd⟩

/-! ## The assertion of `freeFromPool64` -/

theorem index_lt_of_lt_poolEnd (pool p : Nat) (hb : poolBegin pool ≤ p) (he : p < poolEnd pool) :
    (p - poolBegin pool) / CHUNKSIZE < CHUNKS := by
  unfold poolEnd at he
  unfold CHUNKSIZE at he ⊢
  omega

/-- C11, at the pointer where the code departs from it: `ptr = poolEnd` is not
rejected by the range check of `freeFromPool64` (neither `ptr < poolBegin` nor
`poolEnd < ptr` holds), and the index computed for it is `CHUNKS`, so
`index < CHUNKS` is false there: with assertions enabled the call aborts on a
constructed pool.  Every other pointer that passes the range check has an index
below `CHUNKS`. -/
theorem assert_index_fails_at_poolEnd (env : Env β) (s : World β)
    (h : s.pool = env.memory) (h0 : env.memory ≠ 0) :
    ¬ (poolEnd env.memory < poolBegin env.memory ∨ poolEnd env.memory < poolEnd env.memory) ∧
    ¬ (poolEnd env.memory - poolBegin env.memory) / CHUNKSIZE < CHUNKS ∧
    (env.ndebug = false → freeFromPool64 env s (poolEnd env.memory) = none) ∧
    (∀ p, ¬ (p < poolBegin env.memory ∨ poolEnd env.memory < p) → p ≠ poolEnd env.memory →
      (p - poolBegin env.memory) / CHUNKSIZE < CHUNKS) := by
  refine ⟨?_, ?_, ?_, ?_⟩
  · unfold poolEnd; omega
  · rw [poolEnd_index]; exact Nat.lt_irrefl _
  · intro hd
    rw [freeFromPool64_at_poolEnd env s h h0, if_pos hd]
  · intro p hr hp
    exact index_lt_of_lt_poolEnd env.memory p (by omega) (by omega)

theorem assert_index_fails_at_poolEnd_witness :
    (getPool64 sampleEnv boot).2.pool = sampleEnv.memory ∧ sampleEnv.memory ≠ 0 ∧
    ¬ (poolEnd sampleEnv.memory - poolBegin sampleEnv.memory) / CHUNKSIZE < CHUNKS ∧
    freeFromPool64 sampleEnv (getPool64 sampleEnv boot).2 (poolEnd sampleEnv.memory) = none :=
  ⟨rfl, by decide,
    (assert_index_fails_at_poolEnd sampleEnv (getPool64 sampleEnv boot).2 rfl (by decide)).2.1,
    (assert_index_fails_at_poolEnd sampleEnv (getPool64 sampleEnv boot).2 rfl (by decide)).2.2.1
      rfl⟩

/-! ## Tier routing on a pool whose chunks hold application data -/

theorem heldStore_pool : heldStore.pool = sampleEnv.memory :=
  malloc_pool sampleEnv (getPool64 sampleEnv boot).2 8 rfl (by decide)

theorem heldStore_head : poolHead sampleEnv heldStore = chunkAddr sampleEnv.memory 1 := by
  have ht := (malloc_threaded sampleEnv (getPool64 sampleEnv boot).2 0 8 (by decide)
    (getPool64_threaded sampleEnv boot rfl) CHUNKS_pos (by decide)).2.1.2.1
  rw [linkTo_lt _ _ (by decide)] at ht
  have hne : headAddr sampleEnv.memory ≠ 4096 := by decide
  unfold poolHead heldStore
  simp only [Function.update_apply, if_neg hne]
  exact ht

theorem malloc_tier_routing_witness :
    heldStore.pool = sampleEnv.memory ∧ sampleEnv.memory ≠ 0 ∧ 8 ≤ CHUNKSIZE ∧
    poolHead sampleEnv heldStore ≠ 0 ∧ IsLink sampleEnv.memory (poolHead sampleEnv heldStore) ∧
    heldStore.mem 4096 = 12345 ∧
    (malloc sampleEnv heldStore 8).1 = poolHead sampleEnv heldStore ∧
    IsChunk sampleEnv.memory (malloc sampleEnv heldStore 8).1 ∧
    CHUNKSIZE < 17 ∧ (malloc sampleEnv boot 17).1 = 16777216 := by
  have hh : poolHead sampleEnv heldStore ≠ 0 := by
    rw [heldStore_head]; decide
  have hl : IsLink sampleEnv.memory (poolHead sampleEnv heldStore) := by
    rw [heldStore_head]; exact Or.inr (isChunk_chunkAddr _ _ (by decide))
  have hd : heldStore.mem 4096 = 12345 := by
    unfold heldStore
    simp
  have ha := (malloc_tier_routing sampleEnv heldStore 8).1 heldStore_pool (by decide)
    (by decide) hh
  have h1 : (malloc sampleEnv heldStore 8).1 = poolHead sampleEnv heldStore := by
    rw [ha.1]
  have h2 : (malloc sampleEnv boot 17).1 = 16777216 := by
    rw [((malloc_tier_routing sampleEnv boot 17).2 (by decide)).1]
    rfl
  exact ⟨heldStore_pool, by decide, by decide, hh, hl, hd, h1, (ha.2.2.2 hl).2.2, by decide, h2⟩

/-! ## Links along calls and application stores -/

theorem nthNode_ind (m : Nat → Nat) (h : Nat) (P : Nat → Prop) (hh : P h)
    (hstep : ∀ q, P q → q ≠ 0 → P (m q)) :
    ∀ k, nthNode m h k = 0 ∨ P (nthNode m h k) := by
  intro k
  induction k with
  | zero => exact Or.inr hh
  | succ k ih =>
    simp only [nthNode]
    split_ifs with hz
    · exact Or.inl rfl
    · rcases ih with hk | hp
      · exact absurd hk hz
      · exact Or.inr (hstep _ hp hz)

theorem nthNode_succ_of_ne (m : Nat → Nat) (p k : Nat) (hk : nthNode m p k ≠ 0) :
    nthNode m p (k + 1) = m (nthNode m p k) := by
  simp only [nthNode, if_neg hk]

theorem isLink_ne_headAddr (memory q : Nat) (hl : IsLink memory q) (hq : q ≠ 0) :
    q ≠ headAddr memory := by
  rcases hl with hz | hc
  · exact absurd hz hq
  · exact isChunk_ne_headAddr memory q hc

theorem nthNode_threaded (env : Env β) (s : World β) (i : Nat) (h0 : env.memory ≠ 0)
    (ht : Threaded env s i) :
    ∀ k, nthNode s.mem (poolHead env s) k = linkTo env.memory (i + k) := by
  intro k
  induction k with
  | zero => exact ht.2.1
  | succ k ih =>
    simp only [nthNode]
    rw [ih]
    by_cases hlt : i + k < CHUNKS
    · rw [linkTo_lt _ _ hlt, if_neg (chunkAddr_ne_zero _ _ h0)]
      exact ht.2.2 (i + k) hlt
    · rw [linkTo_ge _ _ (by omega), if_pos rfl, ← Nat.add_assoc, linkTo_ge _ _ (by omega)]

theorem isLink_linkTo (memory i : Nat) : IsLink memory (linkTo memory i) := by
  by_cases hlt : i < CHUNKS
  · rw [linkTo_lt _ _ hlt]; exact Or.inr (isChunk_chunkAddr _ _ hlt)
  · rw [linkTo_ge _ _ (by omega)]; exact Or.inl rfl

theorem linksInRegion_of_threaded (env : Env β) (s : World β) (i : Nat) (h0 : env.memory ≠ 0)
    (ht : Threaded env s i) : LinksInRegion env s := by
  intro k
  rw [nthNode_threaded env s i h0 ht k]
  exact isLink_linkTo _ _

theorem linksInRegion_pop (env : Env β) (s : World β) (hl : LinksInRegion env s)
    (hne : poolHead env s ≠ 0) :
    LinksInRegion env
      { s with mem := Function.update s.mem (headAddr env.memory) (s.mem (poolHead env s)) } := by
  intro k
  have hhead : poolHead env
      { s with mem := Function.update s.mem (headAddr env.memory) (s.mem (poolHead env s)) }
      = s.mem (poolHead env s) := by simp [poolHead]
  rw [hhead]
  have key := nthNode_ind
    (Function.update s.mem (headAddr env.memory) (s.mem (poolHead env s)))
    (s.mem (poolHead env s)) (fun q => ∃ j, q = nthNode s.mem (poolHead env s) j)
    ⟨1, by simp [nthNode, hne]⟩
    (by
      rintro q ⟨j, rfl⟩ hq
      refine ⟨j + 1, ?_⟩
      rw [nthNode_succ_of_ne _ _ _ hq, Function.update_apply,
        if_neg (isLink_ne_headAddr _ _ (hl j) hq)]) k
  rcases key with hz | ⟨j, hj⟩
  · exact Or.inl hz
  · have := hl j
    rw [← hj] at this
    exact this

theorem linksInRegion_push (env : Env β) (s : World β) (p : Nat) (hl : LinksInRegion env s)
    (hc : IsChunk env.memory p) :
    LinksInRegion env
      { s with
        mem := Function.update (Function.update s.mem p (s.mem (headAddr env.memory)))
          (headAddr env.memory) p } := by
  intro k
  have hne : p ≠ headAddr env.memory := isChunk_ne_headAddr _ _ hc
  have hhead : poolHead env
      { s with
        mem := Function.update (Function.update s.mem p (s.mem (headAddr env.memory)))
          (headAddr env.memory) p } = p := by simp [poolHead]
  rw [hhead]
  have key := nthNode_ind
    (Function.update (Function.update s.mem p (s.mem (headAddr env.memory)))
      (headAddr env.memory) p)
    p (fun q => q = p ∨ ∃ j, q = nthNode s.mem (poolHead env s) j)
    (Or.inl rfl)
    (by
      intro q hq hq0
      by_cases hqp : q = p
      · right
        refine ⟨0, ?_⟩
        rw [hqp]
        simp [Function.update_apply, hne, nthNode, poolHead]
      · rcases hq with hq | ⟨j, hj⟩
        · exact absurd hq hqp
        · right
          refine ⟨j + 1, ?_⟩
          have hj0 : nthNode s.mem (poolHead env s) j ≠ 0 := by rw [← hj]; exact hq0
          have hqh : q ≠ headAddr env.memory := by
            rw [hj]; exact isLink_ne_headAddr _ _ (hl j) hj0
          rw [nthNode_succ_of_ne _ _ _ hj0, ← hj]
          simp [Function.update_apply, hqh, hqp]) k
  rcases key with hz | hq | ⟨j, hj⟩
  · exact Or.inl hz
  · right
    show IsChunk env.memory (nthNode
      (Function.update (Function.update s.mem p (s.mem (headAddr env.memory)))
        (headAddr env.memory) p) p k)
    rw [hq]
    exact hc
  · have := hl j
    rw [← hj] at this
    exact this

theorem linksInRegion_store (env : Env β) (s : World β) (a v : Nat) (hl : LinksInRegion env s)
    (ha : a ≠ headAddr env.memory) (hv : ∀ k, nthNode s.mem (poolHead env s) k ≠ a) :
    LinksInRegion env { s with mem := Function.update s.mem a v } := by
  intro k
  have hhead : poolHead env { s with mem := Function.update s.mem a v } = poolHead env s := by
    simp [poolHead, Function.update_apply, Ne.symm ha]
  rw [hhead]
  have key := nthNode_ind (Function.update s.mem a v) (poolHead env s)
    (fun q => ∃ j, q = nthNode s.mem (poolHead env s) j) ⟨0, rfl⟩
    (by
      rintro q ⟨j, rfl⟩ hq
      refine ⟨j + 1, ?_⟩
      rw [nthNode_succ_of_ne _ _ _ hq, Function.update_apply, if_neg (hv j)]) k
  rcases key with hz | ⟨j, hj⟩
  · exact Or.inl hz
  · have := hl j
    rw [← hj] at this
    exact this

theorem linksInRegion_malloc (env : Env β) (s : World β) (n : Nat)
    (hp : s.pool = env.memory) (h0 : env.memory ≠ 0) (hl : LinksInRegion env s) :
    LinksInRegion env (malloc env s n).2 := by
  by_cases hn : n ≤ CHUNKSIZE
  · rw [malloc_small_constructed env s n hp h0 hn]
    split_ifs with hz
    · exact hl
    · exact linksInRegion_pop env s hl hz
  · rw [malloc_large env s n (by omega)]
    exact hl

theorem linksInRegion_stepAct (env : Env β) (s : World β) (a : Act)
    (hp : s.pool = env.memory) (h0 : env.memory ≠ 0) (hl : LinksInRegion env s)
    (ha : Allowed env s a) :
    ∃ s1, stepAct env s a = some s1 ∧ s1.pool = env.memory ∧ LinksInRegion env s1 := by
  cases a with
  | malloc n =>
    exact ⟨_, rfl, malloc_pool env s n hp h0, linksInRegion_malloc env s n hp h0 hl⟩
  | free q =>
    obtain ⟨hal, hne⟩ := ha
    rcases chunkAligned_cases env.memory q hal with hr | hc | he
    · exact ⟨_, free_outside env s q hp h0 hr, hp, hl⟩
    · exact ⟨_, free_chunk env s q hp h0 hc.1 hc.2.1, hp, linksInRegion_push env s q hl hc⟩
    · exact absurd he hne
  | store b v =>
    exact ⟨_, rfl, hp, linksInRegion_store env s b v hl ha.1 ha.2⟩

theorem linksInRegion_runActs (env : Env β) (h0 : env.memory ≠ 0) (acts : List Act) :
    ∀ s : World β, s.pool = env.memory → LinksInRegion env s → Permitted env s acts →
      ∃ s1, runActs env s acts = some s1 ∧ s1.pool = env.memory ∧ LinksInRegion env s1 := by
  induction acts with
  | nil =>
    intro s hp hl _
    exact ⟨s, rfl, hp, hl⟩
  | cons a acts ih =>
    intro s hp hl hperm
    obtain ⟨s1, hs1, hp1, hl1⟩ := linksInRegion_stepAct env s a hp h0 hl hperm.1
    obtain ⟨s2, hs2, hp2, hl2⟩ := ih s1 hp1 hl1 (hperm.2 s1 hs1)
    refine ⟨s2, ?_, hp2, hl2⟩
    simp only [runActs, hs1]
    exact hs2

theorem permitted_append (env : Env β) (pre suf : List Act) :
    ∀ s : World β, Permitted env s (pre ++ suf) → Permitted env s pre := by
  induction pre with
  | nil => intro s _; exact trivial
  | cons a pre ih =>
    intro s hperm
    exact ⟨hperm.1, fun s1 h1 => ih s1 (hperm.2 s1 h1)⟩

theorem double_free_store (env : Env β) (s : World β) (p n v : Nat)
    (hp : s.pool = env.memory) (h0 : env.memory ≠ 0) (hc : IsChunk env.memory p)
    (hn : n ≤ CHUNKSIZE) :
    ∃ s4, runActs env s [Act.free p, Act.free p, Act.malloc n, Act.store p v] = some s4 ∧
      poolHead env s4 = p ∧ s4.mem p = v := by
  have hne : p ≠ headAddr env.memory := isChunk_ne_headAddr _ _ hc
  have hp0 : p ≠ 0 := by
    have := hc.1
    unfold poolBegin at this
    omega
  have hf1 := free_chunk env s p hp h0 hc.1 hc.2.1
  have hf2 := free_chunk env
    { s with
      mem := Function.update (Function.update s.mem p (s.mem (headAddr env.memory)))
        (headAddr env.memory) p } p hp h0 hc.1 hc.2.1
  have hm := malloc_small_constructed env
    { s with
      mem := Function.update
        (Function.update
          (Function.update (Function.update s.mem p (s.mem (headAddr env.memory)))
            (headAddr env.memory) p)
          p
          (Function.update (Function.update s.mem p (s.mem (headAddr env.memory)))
            (headAddr env.memory) p (headAddr env.memory)))
        (headAddr env.memory) p } n hp h0 hn
  have hh : poolHead env
      { s with
        mem := Function.update
          (Function.update
            (Function.update (Function.update s.mem p (s.mem (headAddr env.memory)))
              (headAddr env.memory) p)
            p
            (Function.update (Function.update s.mem p (s.mem (headAddr env.memory)))
              (headAddr env.memory) p (headAddr env.memory)))
          (headAddr env.memory) p } = p := by
    simp [poolHead]
  rw [hh, if_neg hp0] at hm
  simp only [runActs, stepAct, hf1, hf2, hm]
  refine ⟨_, rfl, ?_, ?_⟩
  · simp [poolHead, Function.update_apply, hne, Ne.symm hne]
  · simp

/-! ## Claim C10 -/

/-- C10, as the code has it: start from a freshly constructed pool and let the
program make `malloc` calls, `free` calls on `NULL` or on chunk-boundary
pointers `pool_begin + k * CHUNKSIZE` other than `poolEnd` (inside or outside
the region, issued or not, freed before or not), and stores that touch neither
`head` nor a chunk that is on the free list at that moment.  After every
action of the sequence (every initial part `pre`) no call has aborted, and the
head and the link of every chunk met on the free list is `NULL` or the address
of a chunk of `[poolBegin, poolEnd)`. -/
theorem links_stay_in_region (env : Env β) (s0 : World β) (acts : List Act)
    (h : s0.pool = 0) (h0 : env.memory ≠ 0)
    (hperm : Permitted env (getPool64 env s0).2 acts) :
    ∀ pre suf, acts = pre ++ suf →
      ∃ s1, runActs env (getPool64 env s0).2 pre = some s1 ∧ LinksInRegion env s1 := by
  intro pre suf hsplit
  rw [hsplit] at hperm
  obtain ⟨s1, hr, _, hl⟩ :=
    linksInRegion_runActs env h0 pre (getPool64 env s0).2 (getPool64_first_pool env s0 h).2.1
      (linksInRegion_of_threaded env _ 0 h0 (getPool64_threaded env s0 h))
      (permitted_append env pre suf _ hperm)
  exact ⟨s1, hr, hl⟩

theorem sample_permitted :
    Permitted sampleEnv (getPool64 sampleEnv boot).2
      [Act.malloc 8, Act.store 4096 12345, Act.free 4096, Act.free 0] := by
  refine ⟨trivial, fun s1 h1 => ⟨⟨by decide, fun k => ?_⟩, fun s2 _ =>
    ⟨⟨Or.inr rfl, by decide⟩, fun s3 _ => ⟨⟨Or.inl rfl, by decide⟩, fun _ _ => trivial⟩⟩⟩⟩
  simp only [stepAct, Option.some.injEq] at h1
  rw [← h1]
  have ht := (malloc_threaded sampleEnv (getPool64 sampleEnv boot).2 0 8 (by decide)
    (getPool64_threaded sampleEnv boot rfl) CHUNKS_pos (by decide)).2.1
  rw [nthNode_threaded sampleEnv _ (0 + 1) (by decide) ht k]
  by_cases hlt : 0 + 1 + k < CHUNKS
  · rw [linkTo_lt _ _ hlt]
    show 4096 + 16 * (0 + 1 + k) ≠ 4096
    omega
  · rw [linkTo_ge _ _ (by omega)]
    decide

theorem links_stay_in_region_witness :
    boot.pool = 0 ∧ sampleEnv.memory ≠ 0 ∧
    Permitted sampleEnv (getPool64 sampleEnv boot).2
      [Act.malloc 8, Act.store 4096 12345, Act.free 4096, Act.free 0] ∧
    ∃ s1, runActs sampleEnv (getPool64 sampleEnv boot).2
        [Act.malloc 8, Act.store 4096 12345, Act.free 4096, Act.free 0] = some s1 ∧
      LinksInRegion sampleEnv s1 :=
  ⟨rfl, by decide, sample_permitted,
    links_stay_in_region sampleEnv boot _ rfl (by decide) sample_permitted _ []
      (List.append_nil _).symm⟩

/-- C10 fails as stated, with assertions enabled and only chunk pointers of the
region passed to `free`: after `p = malloc(8)` (chunk 0, address 4096),
`free(p)`, `free(p)`, `q = malloc(8)` (again 4096) and a store of the word `1`
through `q`, chunk 4096 is the head of the free list and its link is `1`, which
is neither `NULL` nor the address of a chunk. -/
theorem links_escape_counterexample :
    sampleEnv.ndebug = false ∧
    (malloc sampleEnv (getPool64 sampleEnv boot).2 8).1 = 4096 ∧
    IsChunk sampleEnv.memory 4096 ∧
    ∃ s4, runActs sampleEnv (getPool64 sampleEnv boot).2
        [Act.malloc 8, Act.free 4096, Act.free 4096, Act.malloc 8, Act.store 4096 1]
        = some s4 ∧
      poolHead sampleEnv s4 = 4096 ∧ s4.mem 4096 = 1 ∧ ¬ IsLink sampleEnv.memory 1 ∧
      ¬ LinksInRegion sampleEnv s4 := by
  have hm := (malloc_threaded sampleEnv (getPool64 sampleEnv boot).2 0 8 (by decide)
    (getPool64_threaded sampleEnv boot rfl) CHUNKS_pos (by decide)).1
  obtain ⟨s4, hr, hhead, hv⟩ := double_free_store sampleEnv
    (malloc sampleEnv (getPool64 sampleEnv boot).2 8).2 4096 8 1
    (malloc_pool sampleEnv _ 8 rfl (by decide)) (by decide) (by decide) (by decide)
  refine ⟨rfl, hm, by decide, s4, ?_, hhead, hv, by decide, fun hl => ?_⟩
  · simp only [runActs, stepAct]
    exact hr
  · have h1 := hl 1
    simp only [nthNode] at h1
    rw [hhead, if_neg (by decide), hv] at h1
    exact absurd h1 (by decide)

end Allocations
